import Mathlib

/-!
Verification development for the matching-and-reconciliation core of the
`aeon-flux` page-serving runtime.

The development shallowly embeds the two engines of the repository:

* the route matcher of `packages/runtime-wasm/src/router.rs`
  (`parse_pattern`, `route_specificity`, `match_segments`,
  `resolve_session_id`, `AeonRouter::add_route`, `AeonRouter::match_route`);
* the tree diff/patch engine of `packages/runtime-wasm/src/hydrate.rs`
  (`diff_values`, `compute_diff`, `apply_patch`, `apply_single_patch`).

Modelling conventions:

* Rust `String` is Lean `String`; character-level reasoning goes through
  `String.toList`.  All strings manipulated byte-wise in the source are
  sliced only at ASCII boundaries, so char-level slicing is equivalent.
* Rust `usize` on the `wasm32` target is 32 bits.  Arithmetic that can
  overflow (`1000 - i` and the score accumulation in `route_specificity`)
  is modelled with explicit wrap-around `% 2^32`, the release-profile
  (two's complement wrapping) semantics of the shipped wasm artifact.
* `serde_json::Value` is the inductive `JVal`; numbers are modelled as
  integers (no claim depends on float semantics).  `serde_json`'s default
  `Map` is an ordered `BTreeMap`, modelled as an association list kept
  sorted by key; the well-formedness predicate `sortedKeys` states that
  invariant, which every value deserialized from JSON satisfies.
* The `old_value`/`new_value` fields of `TreeDiff` hold JSON-serialized
  strings in the source; `serde_json::from_str ∘ to_string` is the
  identity on values, so they are modelled as `Option JVal` directly.
* Fallible boundary parsing (`serde_json::from_str(...).unwrap_or(...)`)
  is modelled by `Option`-typed inputs: `none` stands for an unparseable
  input string, `some v` for an input parsing to `v`.
* Rust `HashMap` iteration order is unspecified; the parameter map is an
  association list, and order-sensitivity statements quantify over
  permutations of it.
-/

namespace AeonFlux

/-! ## Data model: router (`router.rs`, `lib.rs`) -/

/-- Segment type for route pattern parsing (`router.rs` `enum Segment`). -/
inductive Segment where
  | Static (s : String)
  | Dynamic (name : String)
  | CatchAll (name : String)
  | OptionalCatchAll (name : String)
deriving DecidableEq, Repr

/-- Route definition (`lib.rs` `struct RouteDefinition`). -/
structure RouteDefinition where
  pattern : String
  session_id : String
  component_id : String
  layout : Option String
  is_aeon : Bool
deriving DecidableEq, Repr

/-- Parsed route pattern (`router.rs` `struct ParsedRoute`). -/
structure ParsedRoute where
  segments : List Segment
  definition : RouteDefinition
deriving DecidableEq, Repr

/-- Route match result (`lib.rs` `struct RouteMatch`).  `params` is the
extracted parameter map (a `HashMap` in the source; modelled as an
association list in insertion order). -/
structure RouteMatch where
  route : RouteDefinition
  params : List (String × String)
  resolved_session_id : String
deriving DecidableEq, Repr

/-- The router state (`router.rs` `struct AeonRouter`). -/
structure AeonRouter where
  routes : List ParsedRoute
deriving DecidableEq, Repr

/-! ## Pattern parsing (`parse_pattern`, `is_route_group`) -/

/-- `str::trim_start_matches(c)` followed by `trim_end_matches(c)` at the
character level. -/
def trimChar (c : Char) (cs : List Char) : List Char :=
  ((cs.dropWhile (· = c)).reverse.dropWhile (· = c)).reverse

/-- Split a string on a separator character, dropping empty tokens:
the `split(sep).filter(|s| !s.is_empty())` pipeline of the source. -/
def splitNonEmpty (sep : Char) (s : String) : List String :=
  ((s.toList.splitOn sep).map List.asString).filter (· ≠ "")

/-- Path tokenization used by `match_route`:
`path.trim_start_matches('/').trim_end_matches('/').split('/').filter(!is_empty)`. -/
def splitSlash (s : String) : List String :=
  (((trimChar '/' s.toList).splitOn '/').map List.asString).filter (· ≠ "")

/-- `is_route_group` (`router.rs`): segment wrapped in parentheses. -/
def is_route_group (s : String) : Bool :=
  s.toList.head? = some '(' && s.toList.getLast? = some ')'

/-- Classification of one pattern token by its outer bracket shape
(the closure inside `parse_pattern`).  Rust byte slices `s[5..len-2]`,
`s[4..len-1]`, `s[1..len-1]` are taken at ASCII boundaries (the matched
bracket markers), so char-level `drop`/`take` agrees with them. -/
def classifySegment (s : String) : Segment :=
  let cs := s.toList
  if List.isPrefixOf "[[...".toList cs ∧ List.isSuffixOf "]]".toList cs then
    Segment.OptionalCatchAll ((cs.drop 5).take (cs.length - 7)).asString
  else if List.isPrefixOf "[...".toList cs ∧ List.isSuffixOf "]".toList cs then
    Segment.CatchAll ((cs.drop 4).take (cs.length - 5)).asString
  else if List.isPrefixOf "[".toList cs ∧ List.isSuffixOf "]".toList cs then
    Segment.Dynamic ((cs.drop 1).take (cs.length - 2)).asString
  else
    Segment.Static s

/-- `parse_pattern` (`router.rs`): trim slashes, split, drop empties and
route groups, classify each remaining token. -/
def parse_pattern (pattern : String) : List Segment :=
  (((((trimChar '/' pattern.toList).splitOn '/').map List.asString).filter
      (· ≠ "")).filter (fun s => ¬ is_route_group s)).map classifySegment

/-! ## Specificity (`route_specificity`) -/

/-- `usize::MAX + 1` on the `wasm32` target. -/
def USIZE : Nat := 2 ^ 32

/-- `route_specificity` (`router.rs`).  `usize` arithmetic is modelled
with explicit wrap-around (release-profile two's complement semantics):
`1000 - i` wraps for `i > 1000`, and so do the products and the sum. -/
def route_specificity (segments : List Segment) : Nat :=
  segments.enum.foldl
    (fun score iseg =>
      let position_weight : Nat := ((1000 - (iseg.1 : Int)) % (USIZE : Int)).toNat
      (score +
        match iseg.2 with
        | Segment.Static _ => position_weight * 10 % USIZE
        | Segment.Dynamic _ => position_weight * 5 % USIZE
        | Segment.CatchAll _ => 1
        | Segment.OptionalCatchAll _ => 0) % USIZE)
    0

/-! ## Segment matching (`match_segments`) -/

/-- `HashMap::insert`: overwrite the binding if the key is present,
otherwise add it. -/
def insertParam (params : List (String × String)) (k v : String) :
    List (String × String) :=
  match params with
  | [] => [(k, v)]
  | (k', v') :: rest =>
    if k' = k then (k, v) :: rest else (k', v') :: insertParam rest k v

/-- `Vec::join("/")`. -/
def joinSlash (l : List String) : String :=
  String.intercalate "/" l

/-- `match_segments` (`router.rs`).  The source walks the segment array
with a cursor `path_idx` into `path_segments`; here the un-consumed
suffix of the path is passed recursively, which is the same walk.
A failure (`return None`) aborts; after the loop the match succeeds iff
the cursor consumed the whole path (`path_idx == path_segments.len()`),
i.e. iff the remaining suffix is empty. -/
def match_segments (route_segments : List Segment) (path_segments : List String)
    (params : List (String × String)) : Option (List (String × String)) :=
  match route_segments with
  | [] => if path_segments = [] then some params else none
  | Segment.Static expected :: rest =>
    match path_segments with
    | [] => none
    | t :: ts => if t = expected then match_segments rest ts params else none
  | Segment.Dynamic name :: rest =>
    match path_segments with
    | [] => none
    | t :: ts => match_segments rest ts (insertParam params name t)
  | Segment.CatchAll name :: rest =>
    match path_segments with
    | [] => none
    | ts => match_segments rest [] (insertParam params name (joinSlash ts))
  | Segment.OptionalCatchAll name :: rest =>
    match path_segments with
    | [] => match_segments rest [] params
    | ts => match_segments rest [] (insertParam params name (joinSlash ts))

/-! ## Session-id resolution (`resolve_session_id`) -/

/-- `str::replace(from, to)`: replace all non-overlapping occurrences of
`pat` left to right.  `pat` is always of the form `'$' :: key`, hence
non-empty, which gives termination. -/
def replaceAll (t : List Char) (pat rep : List Char) : List Char :=
  match t with
  | [] => []
  | c :: rest =>
    if List.isPrefixOf pat (c :: rest) then
      rep ++ replaceAll (rest.drop (pat.length - 1)) pat rep
    else
      c :: replaceAll rest pat rep
termination_by t.length
decreasing_by
  · simp only [List.length_cons, List.length_drop]
    omega
  · simp

/-- `resolve_session_id` (`router.rs`): for every `(key, value)` pair,
replace `format!("${}", key)` in the running result.  The fold order is
the (unspecified) `HashMap` iteration order, passed here explicitly. -/
def resolve_session_id (template : String) (params : List (String × String)) :
    String :=
  params.foldl
    (fun result kv => (replaceAll result.toList ('$' :: kv.1.toList) kv.2.toList).asString)
    template

/-! ## Router operations (`add_route`, `match_route`, `has_route`) -/

/-- Stable descending insertion by specificity: the new element goes
after every element of greater-or-equal score. -/
def insertRouteSorted (x : ParsedRoute) : List ParsedRoute → List ParsedRoute
  | [] => [x]
  | y :: ys =>
    if route_specificity y.segments < route_specificity x.segments then
      x :: y :: ys
    else
      y :: insertRouteSorted x ys

/-- Model of `Vec::sort_by(|a, b| spec(b).cmp(&spec(a)))`.  Rust's
`sort_by` is a stable sort; a stable sort for a given total preorder is
unique (the sorted permutation preserving the relative order of
equivalent elements), so this stable insertion sort computes the same
list. -/
def sortBySpecificity (l : List ParsedRoute) : List ParsedRoute :=
  l.foldl (fun acc x => insertRouteSorted x acc) []

/-- `AeonRouter::add_route`: parse, push, re-sort by specificity. -/
def add_route (r : AeonRouter) (definition : RouteDefinition) : AeonRouter :=
  ⟨sortBySpecificity (r.routes ++ [⟨parse_pattern definition.pattern, definition⟩])⟩

/-- `AeonRouter::new()`. -/
def emptyRouter : AeonRouter := ⟨[]⟩

/-- `AeonRouter::match_route`: split the path, return the first route in
registry order whose segments match, with resolved session id. -/
def match_route (r : AeonRouter) (path : String) : Option RouteMatch :=
  let path_segments := splitSlash path
  r.routes.findSome? fun parsed =>
    (match_segments parsed.segments path_segments []).map fun params =>
      { route := parsed.definition
        params := params
        resolved_session_id :=
          resolve_session_id parsed.definition.session_id params }

/-- `AeonRouter::has_route`. -/
def has_route (r : AeonRouter) (path : String) : Bool :=
  (match_route r path).isSome

/-! ## Bridging facts between `String` and `List Char` -/

@[simp]
theorem asString_data (cs : List Char) : (List.asString cs).data = cs := rfl

@[simp]
theorem asString_toList (cs : List Char) : (List.asString cs).toList = cs := rfl

@[simp]
theorem toList_asString (s : String) : s.toList.asString = s := rfl

theorem toList_append (s t : String) : (s ++ t).toList = s.toList ++ t.toList :=
  String.data_append s t

/-! ## Data model: tree values and change records (`hydrate.rs`) -/

/-- `serde_json::Value`.  Numbers are modelled as integers; objects are
association lists (serde's default map is an ordered `BTreeMap`, so a
deserialized object always has its keys strictly sorted — the invariant
`sortedKeys` below). -/
inductive JVal where
  | null
  | bool (b : Bool)
  | num (n : Int)
  | str (s : String)
  | arr (xs : List JVal)
  | obj (kvs : List (String × JVal))

/-- `TreeDiff` (`hydrate.rs`): one addressed change record.  The source
stores `old_value`/`new_value` as JSON-serialized strings; since
`serde_json::from_str ∘ to_string` is the identity on values they are
modelled as the values themselves. -/
structure TreeDiff where
  path : String
  change_type : String
  old_value : Option JVal
  new_value : Option JVal

/-! ### Association-list model of `BTreeMap` operations -/

/-- Lexicographic strict order on character lists, comparing code
points.  This is the order `BTreeMap<String, _>` keys follow (Rust
compares the UTF-8 bytes, and UTF-8 preserves code-point order). -/
def charsLt : List Char → List Char → Bool
  | [], [] => false
  | [], _ :: _ => true
  | _ :: _, [] => false
  | a :: as, b :: bs =>
    if a.toNat < b.toNat then true
    else if b.toNat < a.toNat then false
    else charsLt as bs

/-- Strict order on strings, modelling Rust's `String` ordering. -/
def strLt (a b : String) : Bool := charsLt a.toList b.toList

/-- `BTreeMap::get`. -/
def lookupKV (kvs : List (String × JVal)) (k : String) : Option JVal :=
  match kvs with
  | [] => none
  | (k', v) :: rest => if k' = k then some v else lookupKV rest k

/-- `BTreeMap::insert`: overwrite in place if the key exists, otherwise
insert at the sorted position. -/
def insertKV (kvs : List (String × JVal)) (k : String) (v : JVal) :
    List (String × JVal) :=
  match kvs with
  | [] => [(k, v)]
  | (k', v') :: rest =>
    if k = k' then (k, v) :: rest
    else if strLt k k' then (k, v) :: (k', v') :: rest
    else (k', v') :: insertKV rest k v

/-- `BTreeMap::remove` (ignoring the returned value). -/
def removeKV (kvs : List (String × JVal)) (k : String) : List (String × JVal) :=
  match kvs with
  | [] => []
  | (k', v') :: rest => if k = k' then rest else (k', v') :: removeKV rest k

/-- In-place update of the value stored at an existing key
(`*map.get_mut(k) = v`); the key's position is unchanged. -/
def setKV (kvs : List (String × JVal)) (k : String) (v : JVal) :
    List (String × JVal) :=
  match kvs with
  | [] => []
  | (k', v') :: rest => if k' = k then (k', v) :: rest else (k', v') :: setKV rest k v

/-! ### Paths -/

/-- The `child_path` computation of `diff_values`:
`if path.is_empty() { key } else { format!("{}.{}", path, key) }`. -/
def childPath (path key : String) : String :=
  if path = "" then key else path ++ "." ++ key

/-- `patch.path.split('.').filter(|s| !s.is_empty())`. -/
def splitDot (s : String) : List String :=
  ((s.toList.splitOn '.').map List.asString).filter (· ≠ "")

/-- Decimal digit character. -/
def digitChar (n : Nat) : Char := Char.ofNat (48 + n)

/-- Decimal digits of a natural number (most significant first), with
explicit fuel for structural recursion; `fuel ≥ 1 + n` always suffices. -/
def natDigitsAux (fuel n : Nat) : List Char :=
  match fuel with
  | 0 => []
  | fuel + 1 =>
    if n < 10 then [digitChar n]
    else natDigitsAux fuel (n / 10) ++ [digitChar (n % 10)]

/-- Model of `format!("{}", i)` for a `usize` array index. -/
def natRepr (n : Nat) : String := (natDigitsAux (n + 1) n).asString

/-- Model of `str::parse::<usize>()` on the `wasm32` target: an optional
leading `'+'`, then one or more ASCII digits, value at most
`usize::MAX = 2^32 - 1`; anything else is `Err`. -/
def parseUsize (s : String) : Option Nat :=
  let cs := s.toList
  let ds := if cs.head? = some '+' then cs.tail else cs
  if ds ≠ [] ∧ ds.all Char.isDigit then
    let n := ds.foldl (fun acc c => acc * 10 + (c.toNat - 48)) 0
    if n < USIZE then some n else none
  else none

/-! ### Diff engine (`diff_values`, `compute_diff`, `diff_trees`) -/

/-- A value found by `lookupKV` is smaller than the list: used by the
termination argument of `diff_values`. -/
theorem sizeOf_lookupKV {kvs : List (String × JVal)} {k : String} {v : JVal}
    (h : lookupKV kvs k = some v) : sizeOf v < sizeOf kvs := by
  induction kvs with
  | nil => simp [lookupKV] at h
  | cons hd tl ih =>
    obtain ⟨hk, hv⟩ := hd
    by_cases he : hk = k
    · rw [lookupKV, if_pos he] at h
      cases h
      simp
      omega
    · rw [lookupKV, if_neg he] at h
      have := ih h
      simp
      omega

/-- An element fetched with `getD` is smaller than the wrapping array
node: used by the termination argument of `diff_values`. -/
theorem sizeOf_getD_lt : ∀ (xs : List JVal) (i : Nat),
    sizeOf (xs.getD i JVal.null) < 1 + sizeOf xs := by
  intro xs
  induction xs with
  | nil =>
    intro i
    simp [List.getD]
  | cons x xs ih =>
    intro i
    cases i with
    | zero =>
      simp
      omega
    | succ j =>
      have := ih j
      simp only [List.getD_cons_succ, List.cons.sizeOf_spec] at *
      omega

mutual

/-- `diff_values` (`hydrate.rs`).  Transcription notes:
* object keys are iterated in map order (sorted, for a `BTreeMap`);
  `old_map.keys()` with the `contains_key` test is the `filter`/`map`
  pass, and the `for (key, new_val) in new_map` loop is the mutual
  helper `diffObjNew`;
* the source's final catch-all arm `_ => if old != new { update }` is
  spelled per remaining constructor pair: for the three same-variant
  scalar pairs it compares the payloads, and any cross-variant pair of
  `serde_json` values is never `==`, so it always yields an update. -/
def diff_values (old new : JVal) (path : String) : List TreeDiff :=
  match old, new with
  | JVal.null, JVal.null => []
  | JVal.null, n => [⟨path, "add", none, some n⟩]
  | o, JVal.null => [⟨path, "remove", some o, none⟩]
  | JVal.obj old_map, JVal.obj new_map =>
    (old_map.filter fun kv => (lookupKV new_map kv.1).isNone).map
      (fun kv => ⟨childPath path kv.1, "remove", some kv.2, none⟩)
    ++ diffObjNew old_map path new_map
  | JVal.arr old_arr, JVal.arr new_arr =>
    (List.range (max old_arr.length new_arr.length)).flatMap fun i =>
      diff_values (old_arr.getD i JVal.null) (new_arr.getD i JVal.null)
        (childPath path (natRepr i))
  | JVal.bool a, JVal.bool b =>
    if a ≠ b then [⟨path, "update", some (JVal.bool a), some (JVal.bool b)⟩] else []
  | JVal.num a, JVal.num b =>
    if a ≠ b then [⟨path, "update", some (JVal.num a), some (JVal.num b)⟩] else []
  | JVal.str a, JVal.str b =>
    if a ≠ b then [⟨path, "update", some (JVal.str a), some (JVal.str b)⟩] else []
  | o, n => [⟨path, "update", some o, some n⟩]
termination_by sizeOf old + sizeOf new
decreasing_by
  · simp only [JVal.obj.sizeOf_spec]
    omega
  · have h1 := sizeOf_getD_lt old_arr i
    have h2 := sizeOf_getD_lt new_arr i
    simp only [JVal.arr.sizeOf_spec]
    omega

/-- The `for (key, new_val) in new_map` loop of the object arm of
`diff_values`: recurse into keys present on both sides, emit an `add`
for keys only in the new map. -/
def diffObjNew (old_map : List (String × JVal)) (path : String) :
    (l : List (String × JVal)) → List TreeDiff
  | [] => []
  | (key, new_val) :: rest =>
    (match h : lookupKV old_map key with
     | some old_val => diff_values old_val new_val (childPath path key)
     | none => [⟨childPath path key, "add", none, some new_val⟩])
    ++ diffObjNew old_map path rest
termination_by l => sizeOf old_map + sizeOf l
decreasing_by
  · have h1 : sizeOf old_val < sizeOf old_map := sizeOf_lookupKV h
    simp only [List.cons.sizeOf_spec, Prod.mk.sizeOf_spec]
    omega
  · simp only [List.cons.sizeOf_spec, Prod.mk.sizeOf_spec]
    omega

end

/-- `compute_diff` (`hydrate.rs`): parse both serialized trees, treating
an unparseable input (`none`) as `Value::Null`, then diff. -/
def compute_diff (old_json new_json : Option JVal) (path : String) : List TreeDiff :=
  diff_values (old_json.getD JVal.null) (new_json.getD JVal.null) path

/-- `diff_trees` (`hydrate.rs`), minus the final re-serialization. -/
def diff_trees (old_json new_json : Option JVal) : List TreeDiff :=
  compute_diff old_json new_json ""

/-! ### Patch applier (`apply_patch`, `apply_single_patch`) -/

/-- The navigation loop of `apply_single_patch` for a non-empty parsed
path: the last component performs the change, earlier components descend
through arrays (by parsed index) or objects (by key), silently dropping
the record (`return`) when navigation fails. -/
def applyParts (patch : TreeDiff) : JVal → List String → JVal
  | tree, [] => tree
  | tree, [part] =>
    match patch.change_type with
    | "add" | "update" =>
      match patch.new_value with
      | some val =>
        match parseUsize part with
        | some idx =>
          match tree with
          | JVal.arr xs =>
            if idx < xs.length then JVal.arr (xs.set idx val)
            else JVal.arr (xs ++ [val])
          | _ => tree
        | none =>
          match tree with
          | JVal.obj kvs => JVal.obj (insertKV kvs part val)
          | _ => tree
      | none => tree
    | "remove" =>
      match parseUsize part with
      | some idx =>
        match tree with
        | JVal.arr xs =>
          if idx < xs.length then JVal.arr (xs.eraseIdx idx) else JVal.arr xs
        | _ => tree
      | none =>
        match tree with
        | JVal.obj kvs => JVal.obj (removeKV kvs part)
        | _ => tree
    | _ => tree
  | tree, part :: part2 :: rest =>
    match parseUsize part with
    | some idx =>
      match tree with
      | JVal.arr xs =>
        if h : idx < xs.length then
          JVal.arr (xs.set idx (applyParts patch xs[idx] (part2 :: rest)))
        else tree
      | _ => tree
    | none =>
      match tree with
      | JVal.obj kvs =>
        match lookupKV kvs part with
        | some v => JVal.obj (setKV kvs part (applyParts patch v (part2 :: rest)))
        | none => tree
      | _ => tree

/-- `apply_single_patch` (`hydrate.rs`).  An empty parsed path is a
root-level change; an `add`/`update` whose `new_value` is absent (or, in
the source, unparseable — impossible for diff-produced records) leaves
the tree unchanged. -/
def apply_single_patch (tree : JVal) (patch : TreeDiff) : JVal :=
  let path_parts := splitDot patch.path
  if path_parts = [] then
    match patch.change_type with
    | "add" | "update" =>
      match patch.new_value with
      | some val => val
      | none => tree
    | "remove" => JVal.null
    | _ => tree
  else
    applyParts patch tree path_parts

/-- The patch loop of `apply_patch`, on an already-parsed tree and list. -/
def applyPatchList (tree : JVal) (patches : List TreeDiff) : JVal :=
  patches.foldl apply_single_patch tree

/-- `apply_patch` (`hydrate.rs`): parse the serialized tree (unparseable
→ `Value::Null`) and patch list (unparseable → `vec![]`), then apply
each record in order. -/
def apply_patch (tree_json : Option JVal) (patch_json : Option (List TreeDiff)) : JVal :=
  applyPatchList (tree_json.getD JVal.null) (patch_json.getD [])

/-- Registering a list of route definitions in order, starting from the
empty router. -/
def registerAll (defs : List RouteDefinition) : AeonRouter :=
  defs.foldl add_route emptyRouter

/-! ## Small facts about the association-list operations -/

theorem lookupKV_insertKV_self (kvs : List (String × JVal)) (k : String) (v : JVal) :
    lookupKV (insertKV kvs k v) k = some v := by
  induction kvs with
  | nil => simp [insertKV, lookupKV]
  | cons hd tl ih =>
    obtain ⟨k', v'⟩ := hd
    by_cases h : k = k'
    · simp [insertKV, h, lookupKV]
    · by_cases h2 : strLt k k' = true
      · simp [insertKV, h, h2, lookupKV]
      · simp only [insertKV, if_neg h, if_neg h2]
        rw [lookupKV, if_neg (fun hh => h hh.symm)]
        exact ih

theorem setKV_self {kvs : List (String × JVal)} {k : String} {v : JVal}
    (h : lookupKV kvs k = some v) : setKV kvs k v = kvs := by
  induction kvs with
  | nil => simp [setKV]
  | cons hd tl ih =>
    obtain ⟨k', v'⟩ := hd
    by_cases hk : k' = k
    · rw [lookupKV, if_pos hk] at h
      cases h
      simp [setKV, hk]
    · rw [lookupKV, if_neg hk] at h
      rw [setKV, if_neg hk, ih h]

theorem list_set_self : ∀ (xs : List JVal) (i : Nat) (h : i < xs.length),
    xs.set i xs[i] = xs := by
  intro xs
  induction xs with
  | nil => intro i h; simp at h
  | cons x tl ih =>
    intro i h
    cases i with
    | zero => simp
    | succ j =>
      simp only [List.length_cons, Nat.add_lt_add_iff_right] at h
      simp only [List.getElem_cons_succ, List.set_cons_succ, List.cons.injEq, true_and]
      exact ih j h

/-! ## Path-string facts -/

theorem splitDot_single {k : String} (h1 : k ≠ "") (h2 : '.' ∉ k.toList) :
    splitDot k = [k] := by
  unfold splitDot
  have hs : k.toList.splitOn '.' = [k.toList] := by
    unfold List.splitOn
    exact List.splitOnP_eq_single _ _ (by
      intro x hx
      simp only [beq_iff_eq]
      exact fun hc => h2 (hc ▸ hx))
  rw [hs]
  have hk : k.data.asString = k := rfl
  simp [hk, h1]

theorem splitDot_empty : splitDot "" = [] := rfl

/-! ## Claim C3: `add_route` is total, registry grows by one -/

theorem length_insertRouteSorted (x : ParsedRoute) :
    ∀ l : List ParsedRoute, (insertRouteSorted x l).length = l.length + 1 := by
  intro l
  induction l with
  | nil => rfl
  | cons y ys ih =>
    rw [insertRouteSorted]
    by_cases h : route_specificity y.segments < route_specificity x.segments
    · simp [h]
    · simp only [if_neg h, List.length_cons, ih]

theorem length_sortBySpecificity (l : List ParsedRoute) :
    (sortBySpecificity l).length = l.length := by
  suffices h : ∀ acc : List ParsedRoute,
      (l.foldl (fun acc x => insertRouteSorted x acc) acc).length = acc.length + l.length by
    simpa using h []
  induction l with
  | nil => intro acc; simp
  | cons x xs ih =>
    intro acc
    simp only [List.foldl_cons, ih, length_insertRouteSorted, List.length_cons]
    omega

theorem route_specificity_lt_USIZE (segs : List Segment) :
    route_specificity segs < USIZE := by
  unfold route_specificity
  suffices h : ∀ (l : List (Nat × Segment)) (acc : Nat), acc < USIZE →
      l.foldl (fun score iseg =>
        (score +
          match iseg.2 with
          | Segment.Static _ => ((1000 - (iseg.1 : Int)) % (USIZE : Int)).toNat * 10 % USIZE
          | Segment.Dynamic _ => ((1000 - (iseg.1 : Int)) % (USIZE : Int)).toNat * 5 % USIZE
          | Segment.CatchAll _ => 1
          | Segment.OptionalCatchAll _ => 0) % USIZE) acc < USIZE by
    exact h _ 0 (by norm_num [USIZE])
  intro l
  induction l with
  | nil => intro acc hacc; simpa using hacc
  | cons p ps ih =>
    intro acc hacc
    simp only [List.foldl_cons]
    exact ih _ (Nat.mod_lt _ (by norm_num [USIZE]))

/-- Claim C3 (confirmed): no core operation aborts.  `add_route` returns
a defined router for every input (the registry simply grows by one
entry), and the specificity score is a well-defined `usize` for every
segment sequence — in particular for sequences longer than 1001
segments, where `1000 - i` wraps around instead of flooring (the
release-profile semantics of the shipped wasm artifact). -/
theorem add_route_total :
    (∀ (r : AeonRouter) (d : RouteDefinition),
      (add_route r d).routes.length = r.routes.length + 1) ∧
    (∀ segs : List Segment, route_specificity segs < USIZE) ∧
    route_specificity (List.replicate 1002 (Segment.Static "a")) < USIZE := by
  refine ⟨?_, route_specificity_lt_USIZE, route_specificity_lt_USIZE _⟩
  intro r d
  simp [add_route, length_sortBySpecificity]

/-! ## Claim C6: match success iff the cursor consumes the path -/

/-- Modelled from the spec (§4.4): the position of the path cursor after
processing all route segments, `none` when the walk fails before the
end.  `some rem` means the cursor stands `rem` tokens before the end of
the path. -/
def specCursorWalk : List Segment → List String → Option (List String)
  | [], rem => some rem
  | Segment.Static expected :: rest, rem =>
    match rem with
    | [] => none
    | t :: ts => if t = expected then specCursorWalk rest ts else none
  | Segment.Dynamic _ :: rest, rem =>
    match rem with
    | [] => none
    | _ :: ts => specCursorWalk rest ts
  | Segment.CatchAll _ :: rest, rem =>
    match rem with
    | [] => none
    | _ => specCursorWalk rest []
  | Segment.OptionalCatchAll _ :: rest, rem =>
    match rem with
    | [] => specCursorWalk rest []
    | _ => specCursorWalk rest []

/-- A route whose segments are all static or dynamic (no catch-all of
either kind). -/
def allStaticDynamic (segs : List Segment) : Bool :=
  segs.all fun s =>
    match s with
    | Segment.Static _ => true
    | Segment.Dynamic _ => true
    | _ => false

theorem match_segments_isSome_iff :
    ∀ (segs : List Segment) (path : List String) (params : List (String × String)),
      (match_segments segs path params).isSome ↔ specCursorWalk segs path = some [] := by
  intro segs
  induction segs with
  | nil =>
    intro path params
    cases path <;> simp [match_segments, specCursorWalk]
  | cons s rest ih =>
    intro path params
    cases s with
    | Static expected =>
      cases path with
      | nil => simp [match_segments, specCursorWalk]
      | cons t ts =>
        by_cases h : t = expected
        · simp [match_segments, specCursorWalk, h, ih]
        · simp [match_segments, specCursorWalk, h]
    | Dynamic name =>
      cases path with
      | nil => simp [match_segments, specCursorWalk]
      | cons t ts => simp [match_segments, specCursorWalk, ih]
    | CatchAll name =>
      cases path with
      | nil => simp [match_segments, specCursorWalk]
      | cons t ts => simp [match_segments, specCursorWalk, ih]
    | OptionalCatchAll name =>
      cases path with
      | nil => simp [match_segments, specCursorWalk, ih]
      | cons t ts => simp [match_segments, specCursorWalk, ih]

/-- Claim C6 (confirmed): `match_segments` succeeds iff the cursor walk
over all route segments completes having consumed every path token; in
particular a route made only of static/dynamic segments that is shorter
than the path never matches. -/
theorem match_segments_consumes_iff :
    (∀ (segs : List Segment) (path : List String) (params : List (String × String)),
      (match_segments segs path params).isSome ↔ specCursorWalk segs path = some []) ∧
    (∀ (segs : List Segment) (path : List String) (params : List (String × String)),
      allStaticDynamic segs = true → segs.length < path.length →
      match_segments segs path params = none) := by
  refine ⟨match_segments_isSome_iff, ?_⟩
  intro segs
  induction segs with
  | nil =>
    intro path params _ hlen
    cases path with
    | nil => simp at hlen
    | cons t ts => simp [match_segments]
  | cons s rest ih =>
    intro path params hall hlen
    have hs : allStaticDynamic rest = true := by
      simp only [allStaticDynamic, List.all_cons, Bool.and_eq_true] at hall
      exact hall.2
    cases s with
    | Static expected =>
      cases path with
      | nil => simp at hlen
      | cons t ts =>
        by_cases h : t = expected
        · simp only [match_segments, if_pos h]
          exact ih ts params hs (by simpa using hlen)
        · simp [match_segments, h]
    | Dynamic name =>
      cases path with
      | nil => simp at hlen
      | cons t ts =>
        simp only [match_segments]
        exact ih ts _ hs (by simpa using hlen)
    | CatchAll name =>
      simp [allStaticDynamic] at hall
    | OptionalCatchAll name =>
      simp [allStaticDynamic] at hall

/-- Witness for C6 at a concrete input: the two-token path `a/b` is not
matched by the one-segment static route `a`. -/
theorem match_segments_consumes_iff_witness :
    allStaticDynamic [Segment.Static "a"] = true ∧
    [Segment.Static "a"].length < ["a", "b"].length ∧
    match_segments [Segment.Static "a"] ["a", "b"] [] = none := by
  refine ⟨by decide, by decide, ?_⟩
  exact match_segments_consumes_iff.2 [Segment.Static "a"] ["a", "b"] [] (by decide) (by decide)

/-! ## Claim C7: catch-all semantics -/

/-- Claim C7 (confirmed): a `CatchAll` segment fails when no path token
remains, and binds all remaining tokens joined by `/` otherwise; an
`OptionalCatchAll` succeeds either way, contributing no binding when no
token remains. -/
theorem catchall_optional_semantics :
    ∀ (name : String) (rest : List Segment) (params : List (String × String))
      (t : String) (ts : List String),
      match_segments (Segment.CatchAll name :: rest) [] params = none ∧
      match_segments (Segment.CatchAll name :: rest) (t :: ts) params =
        match_segments rest [] (insertParam params name (joinSlash (t :: ts))) ∧
      match_segments (Segment.OptionalCatchAll name :: rest) [] params =
        match_segments rest [] params ∧
      match_segments (Segment.OptionalCatchAll name :: rest) (t :: ts) params =
        match_segments rest [] (insertParam params name (joinSlash (t :: ts))) :=
  fun _ _ _ _ _ => ⟨rfl, rfl, rfl, rfl⟩

/-! ## Claim C9: tolerant serialization boundary -/

/-- Claim C9 (confirmed): the serialization boundary never fails: an
unparseable tree (`none`) is treated as `Null` by both `compute_diff`
and `apply_patch`, an unparseable patch list is treated as the empty
list (leaving the tree unchanged), and the operations then proceed
normally on those fallbacks. -/
theorem boundary_fallbacks :
    ∀ (t n : Option JVal) (p : Option (List TreeDiff)) (path : String),
      compute_diff none n path = diff_values JVal.null (n.getD JVal.null) path ∧
      compute_diff t none path = diff_values (t.getD JVal.null) JVal.null path ∧
      apply_patch none p = applyPatchList JVal.null (p.getD []) ∧
      apply_patch t none = t.getD JVal.null :=
  fun _ _ _ _ => ⟨rfl, rfl, rfl, rfl⟩

/-! ## Claim C10: unknown change types are no-ops -/

theorem applyParts_invalid (r : TreeDiff)
    (h1 : r.change_type ≠ "add") (h2 : r.change_type ≠ "remove")
    (h3 : r.change_type ≠ "update") :
    ∀ (parts : List String) (tree : JVal), applyParts r tree parts = tree := by
  intro parts
  induction parts with
  | nil => intro tree; rfl
  | cons p ps ih =>
    intro tree
    cases ps with
    | nil =>
      cases tree <;> simp only [applyParts] <;> split <;> simp_all
    | cons p2 rest =>
      cases tree <;> simp only [applyParts] <;> split <;> try rfl
      all_goals split <;> first | rfl | (rw [ih]; simp_all [list_set_self, setKV_self])

/-- Claim C10 (confirmed): a change record whose `change_type` is none
of `add`/`remove`/`update` leaves the tree unchanged — at the root and
at every non-root path — and the patch loop continues with the
remaining records. -/
theorem unknown_change_type_noop (tree : JVal) (r : TreeDiff) (rest : List TreeDiff)
    (h1 : r.change_type ≠ "add") (h2 : r.change_type ≠ "remove")
    (h3 : r.change_type ≠ "update") :
    apply_single_patch tree r = tree ∧
    applyPatchList tree (r :: rest) = applyPatchList tree rest := by
  have hsingle : apply_single_patch tree r = tree := by
    simp only [apply_single_patch]
    by_cases hp : splitDot r.path = []
    · rw [if_pos hp]
      try split <;> simp_all
    · rw [if_neg hp]
      exact applyParts_invalid r h1 h2 h3 _ tree
  refine ⟨hsingle, ?_⟩
  simp only [applyPatchList, List.foldl_cons, hsingle]

/-- Witness for C10 at a concrete input. -/
theorem unknown_change_type_noop_witness :
    apply_single_patch (JVal.obj [("a", JVal.num 1)]) ⟨"a", "noop", none, some (JVal.num 2)⟩
      = JVal.obj [("a", JVal.num 1)] ∧
    applyPatchList (JVal.obj [("a", JVal.num 1)]) [⟨"a", "noop", none, some (JVal.num 2)⟩]
      = applyPatchList (JVal.obj [("a", JVal.num 1)]) [] :=
  unknown_change_type_noop (JVal.obj [("a", JVal.num 1)])
    ⟨"a", "noop", none, some (JVal.num 2)⟩ []
    (by decide) (by decide) (by decide)

/-! ## Claim C5: `add`/`update` at a final object key -/

/-- Counterexample to claim C5 as stated: an `add` record whose final
path segment is the key `"0"` — a key that parses as a non-negative
integer — does not insert the key into the parent object.  The
index-parse branch wins, finds no array, and silently drops the record,
so the tree is unchanged and in particular differs from the object with
the key inserted. -/
theorem patch_numeric_key_counterexample :
    apply_single_patch (JVal.obj [("a", JVal.num 1)]) ⟨"0", "add", none, some (JVal.num 2)⟩
      = JVal.obj [("a", JVal.num 1)] ∧
    lookupKV [("a", JVal.num 1)] "0" = none ∧
    JVal.obj [("a", JVal.num 1)] ≠ JVal.obj (insertKV [("a", JVal.num 1)] "0" (JVal.num 2)) := by
  refine ⟨rfl, rfl, ?_⟩
  have h : insertKV [("a", JVal.num 1)] "0" (JVal.num 2)
      = [("0", JVal.num 2), ("a", JVal.num 1)] := rfl
  rw [h]
  simp

/-- Claim C5 amended: an `Add`/`Update` record whose final path segment
is a key that does *not* parse as a `usize` inserts-or-overwrites that
key on an object parent (keys that do parse as indices are instead
routed to the array branch and dropped on an object). -/
theorem patch_add_update_object_amended
    (kvs : List (String × JVal)) (k : String) (v : JVal) (r : TreeDiff)
    (hct : r.change_type = "add" ∨ r.change_type = "update")
    (hnv : r.new_value = some v)
    (hpath : r.path = k) (hk1 : k ≠ "") (hk2 : '.' ∉ k.toList)
    (hk3 : parseUsize k = none) :
    apply_single_patch (JVal.obj kvs) r = JVal.obj (insertKV kvs k v) ∧
    lookupKV (insertKV kvs k v) k = some v := by
  refine ⟨?_, lookupKV_insertKV_self kvs k v⟩
  simp only [apply_single_patch, hpath, splitDot_single hk1 hk2]
  rw [if_neg (by simp)]
  rcases hct with hct | hct <;> simp only [applyParts, hct, hnv, hk3]

/-- Witness for the amended C5 at a concrete input: inserting the fresh
key `"b"` and overwriting the existing key after insertion. -/
theorem patch_add_update_object_amended_witness :
    apply_single_patch (JVal.obj [("a", JVal.num 1)]) ⟨"b", "add", none, some (JVal.num 2)⟩
      = JVal.obj (insertKV [("a", JVal.num 1)] "b" (JVal.num 2)) ∧
    lookupKV (insertKV [("a", JVal.num 1)] "b" (JVal.num 2)) "b" = some (JVal.num 2) :=
  patch_add_update_object_amended [("a", JVal.num 1)] "b" (JVal.num 2)
    ⟨"b", "add", none, some (JVal.num 2)⟩
    (Or.inl rfl) rfl rfl (by decide) (by decide) (by decide)

/-! ## Well-formedness predicates on tree values -/

/-- A tree value does not contain `null`. -/
def isNullB : JVal → Bool
  | JVal.null => true
  | _ => false

/-- Keys of an association list are strictly sorted (the `BTreeMap`
invariant; byte-lexicographic order in Rust agrees with the char order
on `String` since UTF-8 preserves code-point order). -/
def keysSorted : List (String × JVal) → Bool
  | [] => true
  | [(_, _)] => true
  | (k1, _) :: (k2, v2) :: rest => strLt k1 k2 && keysSorted ((k2, v2) :: rest)

mutual

/-- Every object in the tree has strictly sorted keys: true of every
value produced by `serde_json` deserialization. -/
def sortedKeys : JVal → Bool
  | JVal.null => true
  | JVal.bool _ => true
  | JVal.num _ => true
  | JVal.str _ => true
  | JVal.arr xs => sortedKeysArr xs
  | JVal.obj kvs => keysSorted kvs && sortedKeysKV kvs
termination_by v => sizeOf v

def sortedKeysArr : List JVal → Bool
  | [] => true
  | x :: xs => sortedKeys x && sortedKeysArr xs
termination_by l => sizeOf l

def sortedKeysKV : List (String × JVal) → Bool
  | [] => true
  | (_, v) :: rest => sortedKeys v && sortedKeysKV rest
termination_by l => sizeOf l
decreasing_by
  · simp only [List.cons.sizeOf_spec, Prod.mk.sizeOf_spec]
    omega
  · simp only [List.cons.sizeOf_spec, Prod.mk.sizeOf_spec]
    omega

end

/-! ## Facts about the key order -/

theorem string_toList_inj {s t : String} (h : s.toList = t.toList) : s = t := by
  cases s
  cases t
  exact congrArg String.mk h

theorem char_toNat_inj {a b : Char} (h : a.toNat = b.toNat) : a = b :=
  Char.ext (UInt32.ext h)

theorem charsLt_irrefl : ∀ cs : List Char, charsLt cs cs = false := by
  intro cs
  induction cs with
  | nil => rfl
  | cons c rest ih => simp [charsLt, ih]

theorem charsLt_ne {a b : List Char} (h : charsLt a b = true) : a ≠ b := by
  intro he
  subst he
  rw [charsLt_irrefl] at h
  cases h

theorem charsLt_trans : ∀ (a b c : List Char),
    charsLt a b = true → charsLt b c = true → charsLt a c = true := by
  intro a
  induction a with
  | nil =>
    intro b c hab hbc
    cases b with
    | nil => cases hab
    | cons bh bt =>
      cases c with
      | nil => cases hbc
      | cons ch ct => rfl
  | cons ah at' ih =>
    intro b c hab hbc
    cases b with
    | nil => cases hab
    | cons bh bt =>
      cases c with
      | nil => cases hbc
      | cons ch ct =>
        rw [charsLt] at hab hbc ⊢
        rcases Nat.lt_trichotomy ah.toNat bh.toNat with h1 | h1 | h1 <;>
          rcases Nat.lt_trichotomy bh.toNat ch.toNat with h2 | h2 | h2
        · rw [if_pos (by omega)]
        · rw [if_pos (by omega)]
        · rw [if_neg (by omega), if_pos (by omega)] at hbc
          simp at hbc
        · rw [if_pos (by omega)]
        · rw [if_neg (by omega), if_neg (by omega)] at hab
          rw [if_neg (by omega), if_neg (by omega)] at hbc
          rw [if_neg (by omega), if_neg (by omega)]
          exact ih bt ct hab hbc
        · rw [if_neg (by omega), if_pos (by omega)] at hbc
          simp at hbc
        · rw [if_neg (by omega), if_pos (by omega)] at hab
          simp at hab
        · rw [if_neg (by omega), if_pos (by omega)] at hab
          simp at hab
        · rw [if_neg (by omega), if_pos (by omega)] at hab
          simp at hab

theorem charsLt_total : ∀ (a b : List Char), a ≠ b →
    charsLt a b = true ∨ charsLt b a = true := by
  intro a
  induction a with
  | nil =>
    intro b hne
    cases b with
    | nil => exact absurd rfl hne
    | cons bh bt => exact Or.inl rfl
  | cons ah at' ih =>
    intro b hne
    cases b with
    | nil => exact Or.inr rfl
    | cons bh bt =>
      by_cases h1 : ah.toNat < bh.toNat
      · exact Or.inl (by rw [charsLt, if_pos h1])
      · by_cases h2 : bh.toNat < ah.toNat
        · exact Or.inr (by rw [charsLt, if_pos h2])
        · have hh : ah = bh := char_toNat_inj (by omega)
          subst hh
          have htne : at' ≠ bt := fun h => hne (by rw [h])
          rcases ih bt htne with h | h
          · exact Or.inl (by rw [charsLt, if_neg h1, if_neg h2]; exact h)
          · exact Or.inr (by rw [charsLt, if_neg h1, if_neg h2]; exact h)

theorem strLt_irrefl (s : String) : strLt s s = false := charsLt_irrefl _

theorem strLt_ne {a b : String} (h : strLt a b = true) : a ≠ b := by
  intro he
  subst he
  rw [strLt_irrefl] at h
  cases h

theorem strLt_trans {a b c : String} (h1 : strLt a b = true) (h2 : strLt b c = true) :
    strLt a c = true := charsLt_trans _ _ _ h1 h2

theorem strLt_total {a b : String} (h : a ≠ b) :
    strLt a b = true ∨ strLt b a = true :=
  charsLt_total _ _ (fun he => h (string_toList_inj he))

theorem strLt_asymm {a b : String} (h1 : strLt a b = true) (h2 : strLt b a = true) :
    False := by
  have := strLt_trans h1 h2
  rw [strLt_irrefl] at this
  cases this

/-! ## Strong-induction helpers -/

theorem jval_strong_induction {motive : JVal → Prop}
    (step : ∀ v : JVal, (∀ w : JVal, sizeOf w < sizeOf v → motive w) → motive v) :
    ∀ v : JVal, motive v := by
  have key : ∀ (n : Nat) (v : JVal), sizeOf v ≤ n → motive v := by
    intro n
    induction n with
    | zero =>
      intro v hv
      exact step v (fun w hw => absurd (Nat.lt_of_lt_of_le hw hv) (Nat.not_lt_zero _))
    | succ m ih =>
      intro v hv
      exact step v (fun w hw => ih w (by omega))
  exact fun v => key (sizeOf v) v (Nat.le_refl _)

theorem jval_pair_strong_induction {motive : JVal → JVal → Prop}
    (step : ∀ a b : JVal,
      (∀ c d : JVal, sizeOf c + sizeOf d < sizeOf a + sizeOf b → motive c d) →
      motive a b) :
    ∀ a b : JVal, motive a b := by
  have key : ∀ (n : Nat) (a b : JVal), sizeOf a + sizeOf b ≤ n → motive a b := by
    intro n
    induction n with
    | zero =>
      intro a b hv
      exact step a b (fun c d hw => absurd (Nat.lt_of_lt_of_le hw hv) (Nat.not_lt_zero _))
    | succ m ih =>
      intro a b hv
      exact step a b (fun c d hw => ih c d (by omega))
  exact fun a b => key (sizeOf a + sizeOf b) a b (Nat.le_refl _)

theorem sizeOf_val_lt_obj {kvs : List (String × JVal)} {k : String} {v : JVal}
    (h : (k, v) ∈ kvs) : sizeOf v < sizeOf (JVal.obj kvs) := by
  have h1 := List.sizeOf_lt_of_mem h
  simp only [Prod.mk.sizeOf_spec] at h1
  simp only [JVal.obj.sizeOf_spec]
  omega

theorem sizeOf_mem_lt_arr {xs : List JVal} {x : JVal} (h : x ∈ xs) :
    sizeOf x < sizeOf (JVal.arr xs) := by
  have h1 := List.sizeOf_lt_of_mem h
  simp only [JVal.arr.sizeOf_spec]
  omega

/-! ## Claim C8: `diff(A, A) = []` -/

theorem keysSorted_head_lt :
    ∀ (rest : List (String × JVal)) (k1 : String) (v1 : JVal),
      keysSorted ((k1, v1) :: rest) = true → ∀ kv ∈ rest, strLt k1 kv.1 = true := by
  intro rest
  induction rest with
  | nil =>
    intro k1 v1 _ kv hkv
    simp at hkv
  | cons hd t ih =>
    intro k1 v1 hs kv hkv
    obtain ⟨k2, v2⟩ := hd
    rw [keysSorted, Bool.and_eq_true] at hs
    obtain ⟨h12, hrest⟩ := hs
    rcases List.mem_cons.mp hkv with h | h
    · subst h
      exact h12
    · exact strLt_trans h12 (ih k2 v2 hrest kv h)

theorem keysSorted_tail {hd : String × JVal} {rest : List (String × JVal)}
    (h : keysSorted (hd :: rest) = true) : keysSorted rest = true := by
  obtain ⟨k1, v1⟩ := hd
  cases rest with
  | nil => rfl
  | cons hd2 t =>
    obtain ⟨k2, v2⟩ := hd2
    rw [keysSorted, Bool.and_eq_true] at h
    exact h.2

theorem lookupKV_of_mem_sorted :
    ∀ (kvs : List (String × JVal)) (k : String) (v : JVal),
      keysSorted kvs = true → (k, v) ∈ kvs → lookupKV kvs k = some v := by
  intro kvs
  induction kvs with
  | nil =>
    intro k v _ hm
    simp at hm
  | cons hd rest ih =>
    intro k v hs hm
    obtain ⟨k1, v1⟩ := hd
    rcases List.mem_cons.mp hm with h | h
    · obtain ⟨hk, hv⟩ := Prod.mk.injEq .. ▸ h
      subst hk
      subst hv
      rw [lookupKV, if_pos rfl]
    · have hlt : strLt k1 k = true := keysSorted_head_lt rest k1 v1 hs (k, v) h
      rw [lookupKV, if_neg (strLt_ne hlt)]
      exact ih k v (keysSorted_tail hs) h

theorem lookupKV_isSome_of_mem_key :
    ∀ (kvs : List (String × JVal)) (k : String) (v : JVal),
      (k, v) ∈ kvs → (lookupKV kvs k).isSome = true := by
  intro kvs
  induction kvs with
  | nil =>
    intro k v hm
    simp at hm
  | cons hd rest ih =>
    intro k v hm
    obtain ⟨k1, v1⟩ := hd
    by_cases h : k1 = k
    · rw [lookupKV, if_pos h]
      rfl
    · rw [lookupKV, if_neg h]
      rcases List.mem_cons.mp hm with he | he
      · exact absurd (Prod.mk.injEq .. ▸ he).1.symm h
      · exact ih k v he

theorem sortedKeysArr_mem {xs : List JVal} (h : sortedKeysArr xs = true) :
    ∀ x ∈ xs, sortedKeys x = true := by
  induction xs with
  | nil => intro x hx; simp at hx
  | cons y ys ih =>
    rw [sortedKeysArr, Bool.and_eq_true] at h
    intro x hx
    rcases List.mem_cons.mp hx with he | he
    · exact he ▸ h.1
    · exact ih h.2 x he

theorem sortedKeysKV_mem {kvs : List (String × JVal)} (h : sortedKeysKV kvs = true) :
    ∀ kv ∈ kvs, sortedKeys kv.2 = true := by
  induction kvs with
  | nil => intro kv hkv; simp at hkv
  | cons hd rest ih =>
    obtain ⟨k1, v1⟩ := hd
    rw [sortedKeysKV, Bool.and_eq_true] at h
    intro kv hkv
    rcases List.mem_cons.mp hkv with he | he
    · exact he ▸ h.1
    · exact ih h.2 kv he

theorem diff_removes_self_nil {kvs : List (String × JVal)} :
    (kvs.filter fun kv => (lookupKV kvs kv.1).isNone) = [] := by
  rw [List.filter_eq_nil_iff]
  intro kv hkv
  obtain ⟨k, v⟩ := kv
  have := lookupKV_isSome_of_mem_key kvs k v hkv
  simp only [Option.isNone]
  rcases hl : lookupKV kvs k with _ | w
  · rw [hl] at this
    cases this
  · simp

theorem diffObjNew_self_of (om : List (String × JVal))
    (hs : keysSorted om = true)
    (hrec : ∀ (k : String) (v : JVal), (k, v) ∈ om → ∀ p, diff_values v v p = []) :
    ∀ l : List (String × JVal), (∀ kv ∈ l, kv ∈ om) →
      ∀ path, diffObjNew om path l = [] := by
  intro l
  induction l with
  | nil => intro _ path; rw [diffObjNew]
  | cons hd rest ih =>
    intro hsub path
    obtain ⟨k, nv⟩ := hd
    have hmem : (k, nv) ∈ om := hsub (k, nv) (List.mem_cons_self _ _)
    have hl : lookupKV om k = some nv := lookupKV_of_mem_sorted om k nv hs hmem
    rw [diffObjNew, hl]
    simp only [List.append_eq_nil]
    exact ⟨hrec k nv hmem _, ih (fun kv hkv => hsub kv (List.mem_cons_of_mem _ hkv)) path⟩

/-- Claim C8 (confirmed): `diff(A, A)` is the empty change list for
every tree value `A` (with the `BTreeMap` invariant that object keys
are strictly sorted, which holds of every deserialized value). -/
theorem diff_self_empty :
    ∀ A : JVal, sortedKeys A = true → ∀ path, diff_values A A path = [] := by
  intro A
  induction A using jval_strong_induction with
  | step v ih =>
    intro hs path
    cases v with
    | null => rw [diff_values]
    | bool b => simp [diff_values]
    | num n => simp [diff_values]
    | str s => simp [diff_values]
    | arr xs =>
      rw [diff_values]
      rw [Nat.max_self]
      rw [List.flatMap_eq_nil_iff]
      intro i hi
      rw [List.mem_range] at hi
      have hg : xs.getD i JVal.null = xs[i] := List.getD_eq_getElem xs JVal.null hi
      rw [hg]
      have hmem : xs[i] ∈ xs := List.getElem_mem hi
      refine ih xs[i] (sizeOf_mem_lt_arr hmem) ?_ _
      rw [sortedKeys] at hs
      exact sortedKeysArr_mem hs _ hmem
    | obj kvs =>
      rw [sortedKeys, Bool.and_eq_true] at hs
      rw [diff_values, diff_removes_self_nil]
      rw [List.map_nil, List.nil_append]
      refine diffObjNew_self_of kvs hs.1 ?_ kvs (fun kv hkv => hkv) path
      intro k v hmem p
      exact ih v (sizeOf_val_lt_obj hmem) (sortedKeysKV_mem hs.2 (k, v) hmem) p

/-- Witness for C8 at a concrete input. -/
theorem diff_self_empty_witness :
    sortedKeys (JVal.obj [("a", JVal.arr [JVal.num 1]), ("b", JVal.str "x")]) = true ∧
    diff_values (JVal.obj [("a", JVal.arr [JVal.num 1]), ("b", JVal.str "x")])
      (JVal.obj [("a", JVal.arr [JVal.num 1]), ("b", JVal.str "x")]) "" = [] := by
  have hs : sortedKeys (JVal.obj [("a", JVal.arr [JVal.num 1]), ("b", JVal.str "x")]) = true := by
    simp [sortedKeys, sortedKeysKV, sortedKeysArr, keysSorted, strLt, charsLt]
  exact ⟨hs, diff_self_empty _ hs ""⟩

/-! ## Claim C2: `match_route` returns the most specific matching route -/

/-- The parsed route built by `add_route`. -/
def toParsed (d : RouteDefinition) : ParsedRoute :=
  ⟨parse_pattern d.pattern, d⟩

/-- The per-route match attempt inside `match_route`'s loop. -/
def matchOpt (ps : List String) (parsed : ParsedRoute) : Option RouteMatch :=
  (match_segments parsed.segments ps []).map fun params =>
    { route := parsed.definition
      params := params
      resolved_session_id := resolve_session_id parsed.definition.session_id params }

theorem match_route_eq_findSome (r : AeonRouter) (path : String) :
    match_route r path = r.routes.findSome? (matchOpt (splitSlash path)) := rfl

/-- Modelled from the spec (§4.5/§8): the route with the highest
specificity score among all routes whose segments structurally match
the path, ties broken in favour of the earlier-registered route;
`none` when no route matches. -/
def specBestRoute (defs : List RouteDefinition) (path : String) : Option RouteDefinition :=
  (defs.filter fun d =>
      (match_segments (parse_pattern d.pattern) (splitSlash path) []).isSome).foldl
    (fun best d =>
      match best with
      | none => some d
      | some b =>
        if route_specificity (parse_pattern b.pattern) <
            route_specificity (parse_pattern d.pattern) then some d
        else some b)
    none

/-- The same selection at the level of parsed routes. -/
def pickMoreSpecific (best : Option ParsedRoute) (p : ParsedRoute) : Option ParsedRoute :=
  match best with
  | none => some p
  | some b =>
    if route_specificity b.segments < route_specificity p.segments then some p
    else some b

/-- The most specific match among a list of parsed routes, ties to the
earlier element. -/
def bestParsed (ps : List String) (l : List ParsedRoute) : Option ParsedRoute :=
  (l.filter fun p => (match_segments p.segments ps []).isSome).foldl pickMoreSpecific none

/-- Registry order invariant: specificity scores are non-increasing. -/
def RoutesSorted (l : List ParsedRoute) : Prop :=
  l.Pairwise fun a b => route_specificity b.segments ≤ route_specificity a.segments

theorem mem_insertRouteSorted {x a : ParsedRoute} :
    ∀ {l : List ParsedRoute}, a ∈ insertRouteSorted x l → a = x ∨ a ∈ l := by
  intro l
  induction l with
  | nil =>
    intro h
    rw [insertRouteSorted] at h
    rcases List.mem_singleton.mp h with h
    exact Or.inl h
  | cons y ys ih =>
    intro h
    rw [insertRouteSorted] at h
    by_cases hc : route_specificity y.segments < route_specificity x.segments
    · rw [if_pos hc] at h
      rcases List.mem_cons.mp h with h | h
      · exact Or.inl h
      · exact Or.inr h
    · rw [if_neg hc] at h
      rcases List.mem_cons.mp h with h | h
      · exact Or.inr (h ▸ List.mem_cons_self _ _)
      · rcases ih h with h | h
        · exact Or.inl h
        · exact Or.inr (List.mem_cons_of_mem _ h)

theorem routesSorted_insert {x : ParsedRoute} :
    ∀ {l : List ParsedRoute}, RoutesSorted l → RoutesSorted (insertRouteSorted x l) := by
  intro l
  induction l with
  | nil =>
    intro _
    rw [insertRouteSorted]
    exact List.pairwise_singleton _ _
  | cons y ys ih =>
    intro hs
    rw [RoutesSorted, List.pairwise_cons] at hs
    obtain ⟨hy, hys⟩ := hs
    rw [insertRouteSorted]
    by_cases hc : route_specificity y.segments < route_specificity x.segments
    · rw [if_pos hc]
      rw [RoutesSorted, List.pairwise_cons]
      constructor
      · intro b hb
        rcases List.mem_cons.mp hb with h | h
        · exact h ▸ Nat.le_of_lt hc
        · exact Nat.le_trans (hy b h) (Nat.le_of_lt hc)
      · rw [List.pairwise_cons]
        exact ⟨hy, hys⟩
    · rw [if_neg hc]
      rw [RoutesSorted, List.pairwise_cons]
      constructor
      · intro b hb
        rcases mem_insertRouteSorted hb with h | h
        · exact h ▸ Nat.le_of_not_lt hc
        · exact hy b h
      · exact ih hys

theorem sortBySpecificity_sorted (l : List ParsedRoute) :
    RoutesSorted (sortBySpecificity l) := by
  suffices h : ∀ acc : List ParsedRoute, RoutesSorted acc →
      RoutesSorted (l.foldl (fun acc x => insertRouteSorted x acc) acc) by
    exact h [] List.Pairwise.nil
  induction l with
  | nil => intro acc hacc; exact hacc
  | cons x xs ih =>
    intro acc hacc
    exact ih _ (routesSorted_insert hacc)

theorem insertRouteSorted_append {x : ParsedRoute} :
    ∀ {l : List ParsedRoute},
      (∀ y ∈ l, ¬ route_specificity y.segments < route_specificity x.segments) →
      insertRouteSorted x l = l ++ [x] := by
  intro l
  induction l with
  | nil => intro _; rfl
  | cons y ys ih =>
    intro h
    rw [insertRouteSorted, if_neg (h y (List.mem_cons_self _ _))]
    rw [ih (fun z hz => h z (List.mem_cons_of_mem _ hz))]
    rfl

theorem sortBySpecificity_of_sorted :
    ∀ {l : List ParsedRoute}, RoutesSorted l → sortBySpecificity l = l := by
  suffices h : ∀ (l acc : List ParsedRoute), RoutesSorted (acc ++ l) →
      l.foldl (fun acc x => insertRouteSorted x acc) acc = acc ++ l by
    intro l hl
    exact h l [] (by simpa using hl)
  intro l
  induction l with
  | nil => intro acc _; simp
  | cons x xs ih =>
    intro acc hs
    have hx : insertRouteSorted x acc = acc ++ [x] := by
      refine insertRouteSorted_append ?_
      intro y hy
      have : route_specificity x.segments ≤ route_specificity y.segments := by
        have := (List.pairwise_append.mp hs).2.2
        exact this y hy x (List.mem_cons_self _ _)
      omega
    rw [List.foldl_cons, hx]
    have : acc ++ x :: xs = (acc ++ [x]) ++ xs := by simp
    rw [this] at hs
    rw [ih (acc ++ [x]) hs]
    simp

theorem sortBySpecificity_append_single (l : List ParsedRoute) (x : ParsedRoute) :
    sortBySpecificity (l ++ [x]) = insertRouteSorted x (sortBySpecificity l) := by
  rw [sortBySpecificity, List.foldl_append]
  rfl

theorem findSome?_eq_find?_bind {β : Type} (f : ParsedRoute → Option β) :
    ∀ l : List ParsedRoute,
      l.findSome? f = (l.find? fun p => (f p).isSome).bind f := by
  intro l
  induction l with
  | nil => rfl
  | cons x xs ih =>
    rcases hf : f x with _ | b
    · simp [List.findSome?_cons, List.find?_cons, hf, ih]
    · simp [List.findSome?_cons, List.find?_cons, hf]

/-- How a stable specificity-descending insertion changes the first
match of a sorted registry: a more-or-equally-specific existing match
survives; otherwise the new route wins exactly when it matches. -/
theorem find?_insertRouteSorted (P : ParsedRoute → Bool) (x : ParsedRoute) :
    ∀ l : List ParsedRoute, RoutesSorted l →
      (insertRouteSorted x l).find? P =
        match l.find? P with
        | some y =>
          if route_specificity x.segments ≤ route_specificity y.segments then some y
          else if P x then some x else some y
        | none => if P x then some x else none := by
  intro l
  induction l with
  | nil =>
    intro _
    rw [insertRouteSorted]
    rcases hPx : P x with _ | _ <;> simp [List.find?, hPx]
  | cons y ys ih =>
    intro hs
    rw [RoutesSorted, List.pairwise_cons] at hs
    obtain ⟨hy, hys⟩ := hs
    rw [insertRouteSorted]
    by_cases hc : route_specificity y.segments < route_specificity x.segments
    · rw [if_pos hc]
      rcases hfind : (y :: ys).find? P with _ | z
      · rw [List.find?_cons, hfind]
        dsimp only
        rcases hPx : P x with _ | _ <;> simp [hPx]
      · rw [List.find?_cons, hfind]
        dsimp only
        have hz : z ∈ y :: ys := List.mem_of_find?_eq_some hfind
        have hzy : route_specificity z.segments ≤ route_specificity y.segments := by
          rcases List.mem_cons.mp hz with h | h
          · exact h ▸ Nat.le_refl _
          · exact hy z h
        rw [if_neg (by omega)]
        rcases hPx : P x with _ | _ <;> simp [hPx]
    · rw [if_neg hc]
      rcases hPy : P y with _ | _
      · simp only [List.find?_cons, hPy]
        rw [ih hys]
      · simp [List.find?_cons, hPy, if_pos (Nat.le_of_not_lt hc)]

theorem bestParsed_append_single (ps : List String) (l : List ParsedRoute)
    (x : ParsedRoute) :
    bestParsed ps (l ++ [x]) =
      if (match_segments x.segments ps []).isSome
      then pickMoreSpecific (bestParsed ps l) x
      else bestParsed ps l := by
  rw [bestParsed, List.filter_append, List.foldl_append]
  rcases h : (match_segments x.segments ps []).isSome with _ | _
  · simp [h, bestParsed]
  · simp [h, bestParsed]

/-- Joint registry invariant: after registering any list of definitions
the registry is specificity-sorted, and its first structural match is
the most-specific matching route with ties to the earlier registration. -/
theorem registerAll_invariant (ps : List String) :
    ∀ defs : List RouteDefinition,
      RoutesSorted (registerAll defs).routes ∧
      (registerAll defs).routes.find? (fun p => (match_segments p.segments ps []).isSome)
        = bestParsed ps (defs.map toParsed) := by
  intro defs
  induction defs using List.reverseRecOn with
  | nil => exact ⟨List.Pairwise.nil, rfl⟩
  | append_singleton defs d ih =>
    obtain ⟨ihs, ihf⟩ := ih
    have hroutes : (registerAll (defs ++ [d])).routes
        = insertRouteSorted (toParsed d) (registerAll defs).routes := by
      have hreg : registerAll (defs ++ [d]) = add_route (registerAll defs) d := by
        rw [registerAll, List.foldl_append]
        rfl
      rw [hreg]
      show sortBySpecificity ((registerAll defs).routes ++ [toParsed d]) = _
      rw [sortBySpecificity_append_single, sortBySpecificity_of_sorted ihs]
    refine ⟨by rw [hroutes]; exact routesSorted_insert ihs, ?_⟩
    rw [hroutes, find?_insertRouteSorted _ _ _ ihs, ihf]
    rw [List.map_append, List.map_singleton, bestParsed_append_single]
    rcases hb : bestParsed ps (defs.map toParsed) with _ | y <;>
      rcases hm : (match_segments (toParsed d).segments ps []).isSome with _ | _
    · simp
    · simp [pickMoreSpecific]
    · simp
    · by_cases hc : route_specificity y.segments < route_specificity (toParsed d).segments
      · have hc2 : ¬ route_specificity (toParsed d).segments ≤ route_specificity y.segments := by
          omega
        simp [pickMoreSpecific, hc, hc2]
      · have hc2 : route_specificity (toParsed d).segments ≤ route_specificity y.segments := by
          omega
        simp [pickMoreSpecific, hc, hc2]

theorem foldl_pick_preserves (Q : ParsedRoute → Prop) :
    ∀ (l : List ParsedRoute) (acc : Option ParsedRoute),
      (∀ b, acc = some b → Q b) → (∀ p ∈ l, Q p) →
      ∀ b, l.foldl pickMoreSpecific acc = some b → Q b := by
  intro l
  induction l with
  | nil =>
    intro acc hacc _ b hb
    exact hacc b hb
  | cons x xs ih =>
    intro acc hacc hl b hb
    rw [List.foldl_cons] at hb
    refine ih (pickMoreSpecific acc x) ?_ (fun p hp => hl p (List.mem_cons_of_mem _ hp)) b hb
    intro c hc
    rcases acc with _ | a
    · simp only [pickMoreSpecific] at hc
      cases hc
      exact hl x (List.mem_cons_self _ _)
    · simp only [pickMoreSpecific] at hc
      by_cases hlt : route_specificity a.segments < route_specificity x.segments
      · rw [if_pos hlt] at hc
        cases hc
        exact hl x (List.mem_cons_self _ _)
      · rw [if_neg hlt] at hc
        cases hc
        exact hacc c rfl

theorem bestParsed_matching {ps : List String} {l : List ParsedRoute} {p : ParsedRoute}
    (h : bestParsed ps l = some p) :
    (match_segments p.segments ps []).isSome = true := by
  refine foldl_pick_preserves (fun q => (match_segments q.segments ps []).isSome = true)
    (l.filter fun q => (match_segments q.segments ps []).isSome) none
    (by intro b hb; cases hb) ?_ p h
  intro q hq
  exact (List.mem_filter.mp hq).2

theorem foldl_pick_map (defs : List RouteDefinition) :
    ∀ acc : Option RouteDefinition,
      defs.foldl (fun b d => pickMoreSpecific b (toParsed d)) (acc.map toParsed)
        = (defs.foldl
            (fun best d =>
              match best with
              | none => some d
              | some b =>
                if route_specificity (parse_pattern b.pattern) <
                    route_specificity (parse_pattern d.pattern) then some d
                else some b)
            acc).map toParsed := by
  induction defs with
  | nil => intro acc; rfl
  | cons d ds ih =>
    intro acc
    rw [List.foldl_cons, List.foldl_cons]
    have hstep : pickMoreSpecific (acc.map toParsed) (toParsed d)
        = (match acc with
           | none => some d
           | some b =>
             if route_specificity (parse_pattern b.pattern) <
                 route_specificity (parse_pattern d.pattern) then some d
             else some b).map toParsed := by
      rcases acc with _ | b
      · rfl
      · show pickMoreSpecific (some (toParsed b)) (toParsed d)
            = Option.map toParsed (if route_specificity (parse_pattern b.pattern) <
                route_specificity (parse_pattern d.pattern) then some d else some b)
        dsimp only [pickMoreSpecific, toParsed]
        split <;> rfl
    rw [hstep, ih]

theorem specBestRoute_eq_bestParsed (defs : List RouteDefinition) (path : String) :
    specBestRoute defs path
      = (bestParsed (splitSlash path) (defs.map toParsed)).map (fun p => p.definition) := by
  rw [bestParsed, specBestRoute]
  have hfilter : ((defs.map toParsed).filter fun p =>
        (match_segments p.segments (splitSlash path) []).isSome)
      = (defs.filter fun d =>
          (match_segments (parse_pattern d.pattern) (splitSlash path) []).isSome).map toParsed := by
    rw [List.filter_map]
    rfl
  rw [hfilter, List.foldl_map]
  rw [show (none : Option ParsedRoute) = (none : Option RouteDefinition).map toParsed from rfl]
  rw [foldl_pick_map]
  generalize (defs.filter fun d =>
      (match_segments (parse_pattern d.pattern) (splitSlash path) []).isSome).foldl _ none = res
  rcases res with _ | r
  · rfl
  · rfl

/-- Claim C2 (confirmed): `match_route` over any registered route set
returns exactly the route selected by the specification's rule — the
structurally matching route of the highest specificity score, ties
broken in favour of the earlier-registered route — and no match exactly
when no route's segments match. -/
theorem match_route_most_specific :
    ∀ (defs : List RouteDefinition) (path : String),
      (match_route (registerAll defs) path).map (fun m => m.route)
        = specBestRoute defs path := by
  intro defs path
  rw [match_route_eq_findSome, findSome?_eq_find?_bind]
  have hpred : (fun p => (matchOpt (splitSlash path) p).isSome)
      = (fun p => (match_segments p.segments (splitSlash path) []).isSome) := by
    funext p
    rw [matchOpt]
    rcases match_segments p.segments (splitSlash path) [] with _ | params <;> rfl
  rw [hpred, (registerAll_invariant (splitSlash path) defs).2, specBestRoute_eq_bestParsed]
  rcases hb : bestParsed (splitSlash path) (defs.map toParsed) with _ | p
  · rfl
  · have hm := bestParsed_matching hb
    rcases hms : match_segments p.segments (splitSlash path) [] with _ | params
    · rw [hms] at hm
      cases hm
    · simp [matchOpt, hms]

/-! ## Claim C4: order of parameter substitution -/

/-- A template decomposed into `'$'`-free literal text and `$name`
placeholders. -/
inductive Chunk where
  | text (s : List Char)
  | hole (name : List Char)
deriving DecidableEq, Repr

/-- Re-assemble the template string of a chunk decomposition. -/
def renderChunks : List Chunk → List Char
  | [] => []
  | Chunk.text s :: rest => s ++ renderChunks rest
  | Chunk.hole n :: rest => '$' :: (n ++ renderChunks rest)

/-- Substitute one parameter at the chunk level: every `$k` placeholder
becomes the literal value `v`. -/
def fillChunks (k v : List Char) : List Chunk → List Chunk
  | [] => []
  | Chunk.text s :: rest => Chunk.text s :: fillChunks k v rest
  | Chunk.hole n :: rest =>
    (if n = k then Chunk.text v else Chunk.hole n) :: fillChunks k v rest

/-- Well-formed placeholder name: non-empty and `'$'`-free. -/
def WFName (n : List Char) : Prop := n ≠ [] ∧ '$' ∉ n

/-- A prefix-free family of names: no name is a (possibly improper)
prefix of a different name. -/
def PrefixFree (N : List (List Char)) : Prop :=
  ∀ n1 ∈ N, ∀ n2 ∈ N, n1 <+: n2 → n1 = n2

/-- Chunks are well-formed over a name family: text is `'$'`-free and
every hole name belongs to the family. -/
def WFChunks (N : List (List Char)) : List Chunk → Prop
  | [] => True
  | Chunk.text s :: rest => '$' ∉ s ∧ WFChunks N rest
  | Chunk.hole n :: rest => n ∈ N ∧ WFChunks N rest

theorem isPrefixOf_append_self (l r : List Char) : List.isPrefixOf l (l ++ r) = true :=
  List.isPrefixOf_iff_prefix.mpr (List.prefix_append l r)

theorem replaceAll_skip_no_dollar {k v : List Char} :
    ∀ (u : List Char), '$' ∉ u →
      ∀ t, replaceAll (u ++ t) ('$' :: k) v = u ++ replaceAll t ('$' :: k) v := by
  intro u
  induction u with
  | nil => intro _ t; rfl
  | cons c cu ih =>
    intro hd t
    have hc : c ≠ '$' := fun h => hd (h ▸ List.mem_cons_self _ _)
    have hpre : List.isPrefixOf ('$' :: k) (c :: (cu ++ t)) = false := by
      simp only [List.isPrefixOf, Bool.and_eq_false_iff]
      left
      simp only [beq_eq_false_iff_ne, ne_eq]
      exact fun h => hc h.symm
    rw [List.cons_append, replaceAll, if_neg (by simp [hpre])]
    rw [ih (fun h => hd (List.mem_cons_of_mem _ h)) t]
    rfl

theorem replaceAll_block {k v : List Char} (t : List Char) :
    replaceAll (('$' :: k) ++ t) ('$' :: k) v = v ++ replaceAll t ('$' :: k) v := by
  rw [List.cons_append, replaceAll,
    if_pos (by rw [← List.cons_append]; exact isPrefixOf_append_self _ _)]
  simp only [List.length_cons, Nat.add_sub_cancel]
  rw [List.drop_left]

theorem not_prefix_of_distinct_names {N : List (List Char)} (hpf : PrefixFree N)
    {k n : List Char} (hk : k ∈ N) (hn : n ∈ N) (hne : n ≠ k) (r : List Char) :
    ¬ ('$' :: k) <+: ('$' :: (n ++ r)) := by
  intro h
  have hkr : k <+: n ++ r := by
    rcases h with ⟨s, hs⟩
    exact ⟨s, by simpa using hs⟩
  have hn' : n <+: n ++ r := List.prefix_append n r
  rcases List.prefix_or_prefix_of_prefix hkr hn' with h' | h'
  · exact hne (hpf k hk n hn h').symm
  · exact hne (hpf n hn k hk h')

theorem replaceAll_render {N : List (List Char)} (hN : ∀ n ∈ N, WFName n)
    (hpf : PrefixFree N) {k : List Char} (hk : k ∈ N) {v : List Char} (hv : '$' ∉ v) :
    ∀ cs : List Chunk, WFChunks N cs →
      replaceAll (renderChunks cs) ('$' :: k) v = renderChunks (fillChunks k v cs) := by
  intro cs
  induction cs with
  | nil =>
    intro _
    show replaceAll [] ('$' :: k) v = []
    rw [replaceAll]
  | cons c rest ih =>
    intro hwf
    cases c with
    | text s =>
      obtain ⟨hs, hwrest⟩ := hwf
      rw [renderChunks, replaceAll_skip_no_dollar s hs, ih hwrest]
      rfl
    | hole n =>
      obtain ⟨hnN, hwrest⟩ := hwf
      by_cases hnk : n = k
      · subst hnk
        rw [renderChunks, show '$' :: (n ++ renderChunks rest) = ('$' :: n) ++ renderChunks rest
            from rfl]
        rw [replaceAll_block, ih hwrest]
        rw [fillChunks, if_pos rfl]
        rfl
      · have hnopre := not_prefix_of_distinct_names hpf hk hnN hnk (renderChunks rest)
        have hpre : List.isPrefixOf ('$' :: k) ('$' :: (n ++ renderChunks rest)) = false := by
          rcases hb : List.isPrefixOf ('$' :: k) ('$' :: (n ++ renderChunks rest)) with _ | _
          · rfl
          · exact absurd (List.isPrefixOf_iff_prefix.mp hb) hnopre
        rw [renderChunks, replaceAll, if_neg (by simp [hpre])]
        have hdn : '$' ∉ n := (hN n hnN).2
        rw [replaceAll_skip_no_dollar n hdn, ih hwrest]
        rw [fillChunks, if_neg hnk]
        rfl

theorem fillChunks_comm {k1 v1 k2 v2 : List Char} (h : k1 ≠ k2) :
    ∀ cs : List Chunk,
      fillChunks k2 v2 (fillChunks k1 v1 cs) = fillChunks k1 v1 (fillChunks k2 v2 cs) := by
  intro cs
  induction cs with
  | nil => rfl
  | cons c rest ih =>
    cases c with
    | text s => simp only [fillChunks, ih]
    | hole n =>
      by_cases h1 : n = k1
      · subst h1
        have h2 : ¬ n = k2 := h
        simp [fillChunks, h2, ih]
      · by_cases h2 : n = k2
        · subst h2
          simp [fillChunks, h1, ih]
        · simp [fillChunks, h1, h2, ih]

theorem wfChunks_fill {N : List (List Char)} {k v : List Char} (hv : '$' ∉ v) :
    ∀ {cs : List Chunk}, WFChunks N cs → WFChunks N (fillChunks k v cs) := by
  intro cs
  induction cs with
  | nil => intro _; exact trivial
  | cons c rest ih =>
    intro hwf
    cases c with
    | text s =>
      obtain ⟨hs, hwrest⟩ := hwf
      exact ⟨hs, ih hwrest⟩
    | hole n =>
      obtain ⟨hn, hwrest⟩ := hwf
      rw [fillChunks]
      by_cases hnk : n = k
      · rw [if_pos hnk]
        exact ⟨hv, ih hwrest⟩
      · rw [if_neg hnk]
        exact ⟨hn, ih hwrest⟩

/-- The chunk-level substitution fold. -/
def resolveChunks (cs : List Chunk) (ps : List (String × String)) : List Chunk :=
  ps.foldl (fun acc kv => fillChunks kv.1.toList kv.2.toList acc) cs

/-- Conditions on the parameter mapping relative to the name family. -/
def WFParams (N : List (List Char)) (ps : List (String × String)) : Prop :=
  (∀ kv ∈ ps, kv.1.toList ∈ N ∧ '$' ∉ kv.2.toList) ∧
  ps.Pairwise fun a b => a.1 ≠ b.1

theorem resolve_session_id_eq_chunks {N : List (List Char)} (hN : ∀ n ∈ N, WFName n)
    (hpf : PrefixFree N) :
    ∀ (ps : List (String × String)) (cs : List Chunk), WFChunks N cs →
      (∀ kv ∈ ps, kv.1.toList ∈ N ∧ '$' ∉ kv.2.toList) →
      resolve_session_id (renderChunks cs).asString ps
        = (renderChunks (resolveChunks cs ps)).asString := by
  intro ps
  induction ps with
  | nil => intro cs _ _; rfl
  | cons kv rest ih =>
    intro cs hwf hps
    have hkv := hps kv (List.mem_cons_self _ _)
    rw [resolve_session_id, List.foldl_cons]
    have hstep : replaceAll ((renderChunks cs).asString.toList) ('$' :: kv.1.toList)
        kv.2.toList = renderChunks (fillChunks kv.1.toList kv.2.toList cs) := by
      rw [asString_toList]
      exact replaceAll_render hN hpf hkv.1 hkv.2 cs hwf
    rw [hstep]
    have := ih (fillChunks kv.1.toList kv.2.toList cs)
      (wfChunks_fill hkv.2 hwf)
      (fun kv2 h2 => hps kv2 (List.mem_cons_of_mem _ h2))
    rw [resolve_session_id] at this
    rw [this]
    rfl

theorem resolveChunks_perm :
    ∀ {ps qs : List (String × String)}, ps.Perm qs →
      (ps.Pairwise fun a b => a.1 ≠ b.1) →
      ∀ cs : List Chunk, resolveChunks cs ps = resolveChunks cs qs := by
  intro ps qs hperm
  induction hperm with
  | nil => intro _ cs; rfl
  | cons x h ih =>
    intro hdist cs
    rw [resolveChunks, List.foldl_cons, resolveChunks, List.foldl_cons]
    exact ih (List.pairwise_cons.mp hdist).2 _
  | swap x y l =>
    intro hdist cs
    rw [resolveChunks, List.foldl_cons, List.foldl_cons,
      resolveChunks, List.foldl_cons, List.foldl_cons]
    have hxy : y.1 ≠ x.1 := (List.pairwise_cons.mp hdist).1 x (List.mem_cons_self _ _)
    have hcomm : fillChunks x.1.toList x.2.toList (fillChunks y.1.toList y.2.toList cs)
        = fillChunks y.1.toList y.2.toList (fillChunks x.1.toList x.2.toList cs) := by
      refine fillChunks_comm ?_ cs
      intro h
      exact hxy (string_toList_inj h)
    rw [hcomm]
  | trans h1 h2 ih1 ih2 =>
    intro hdist cs
    rw [ih1 hdist cs]
    exact ih2 ((h1.pairwise_iff (fun hab he => hab he.symm)).mp hdist) cs

/-- Counterexample to claim C4 as stated: with parameters `a ↦ x` and
`ab ↦ y` (one name a prefix of the other) the template `"$ab"` resolves
to `"xb"` in one iteration order and to `"y"` in the other. -/
theorem resolve_order_counterexample :
    List.Perm [("a", "x"), ("ab", "y")] [("ab", "y"), ("a", "x")] ∧
    resolve_session_id "$ab" [("a", "x"), ("ab", "y")] = "xb" ∧
    resolve_session_id "$ab" [("ab", "y"), ("a", "x")] = "y" ∧
    resolve_session_id "$ab" [("a", "x"), ("ab", "y")]
      ≠ resolve_session_id "$ab" [("ab", "y"), ("a", "x")] := by
  have h1 : resolve_session_id "$ab" [("a", "x"), ("ab", "y")] = "xb" := by
    simp [resolve_session_id, replaceAll, List.isPrefixOf]
    rfl
  have h2 : resolve_session_id "$ab" [("ab", "y"), ("a", "x")] = "y" := by
    simp [resolve_session_id, replaceAll, List.isPrefixOf]
    rfl
  refine ⟨by decide, h1, h2, ?_⟩
  rw [h1, h2]
  decide

/-- Claim C4 amended: substitution order is irrelevant for templates
that are an interleaving of `'$'`-free literal text and `$name`
placeholders whose names come from a prefix-free family of non-empty
`'$'`-free names, when the parameter names belong to that family, the
parameter names are pairwise distinct (as `HashMap` keys are), and the
substituted values contain no `'$'`. -/
theorem resolve_order_independent_amended
    (N : List (List Char)) (cs : List Chunk) (ps qs : List (String × String))
    (hN : ∀ n ∈ N, WFName n) (hpf : PrefixFree N) (hcs : WFChunks N cs)
    (hps : ∀ kv ∈ ps, kv.1.toList ∈ N ∧ '$' ∉ kv.2.toList)
    (hdist : ps.Pairwise fun a b => a.1 ≠ b.1)
    (hperm : ps.Perm qs) :
    resolve_session_id (renderChunks cs).asString ps
      = resolve_session_id (renderChunks cs).asString qs := by
  have hqs : ∀ kv ∈ qs, kv.1.toList ∈ N ∧ '$' ∉ kv.2.toList :=
    fun kv hkv => hps kv (hperm.mem_iff.mpr hkv)
  rw [resolve_session_id_eq_chunks hN hpf ps cs hcs hps,
    resolve_session_id_eq_chunks hN hpf qs cs hcs hqs,
    resolveChunks_perm hperm hdist cs]

/-- Witness for the amended C4 at a concrete input: the two-placeholder
template `"$a-$b"` resolves identically under both substitution
orders. -/
theorem resolve_order_independent_amended_witness :
    (∀ n ∈ [['a'], ['b']], WFName n) ∧
    PrefixFree [['a'], ['b']] ∧
    WFChunks [['a'], ['b']] [Chunk.hole ['a'], Chunk.text ['-'], Chunk.hole ['b']] ∧
    resolve_session_id
        (renderChunks [Chunk.hole ['a'], Chunk.text ['-'], Chunk.hole ['b']]).asString
        [("a", "1"), ("b", "2")]
      = resolve_session_id
        (renderChunks [Chunk.hole ['a'], Chunk.text ['-'], Chunk.hole ['b']]).asString
        [("b", "2"), ("a", "1")] := by
  refine ⟨?_, ?_, ?_, ?_⟩
  · simp only [WFName]
    decide
  · simp only [PrefixFree]
    decide
  · simp only [WFChunks]
    decide
  · exact resolve_order_independent_amended [['a'], ['b']]
      [Chunk.hole ['a'], Chunk.text ['-'], Chunk.hole ['b']]
      [("a", "1"), ("b", "2")] [("b", "2"), ("a", "1")]
      (by simp only [WFName]; decide) (by simp only [PrefixFree]; decide)
      (by simp only [WFChunks]; decide) (by decide) (by decide) (by decide)

/-! ## Claim C1: round-trip of diff and patch

Auxiliary development: decimal index strings, path algebra, tree
well-formedness, and the frame lemmas for `apply_single_patch`. -/

theorem digitChar_toNat {n : Nat} (h : n < 10) : (digitChar n).toNat = 48 + n := by
  interval_cases n <;> decide

theorem digitChar_isDigit {n : Nat} (h : n < 10) : (digitChar n).isDigit = true := by
  interval_cases n <;> decide

/-- The decimal fold used by `parseUsize`. -/
def decFold (ds : List Char) : Nat :=
  ds.foldl (fun acc c => acc * 10 + (c.toNat - 48)) 0

theorem decFold_append_digit (ds : List Char) (c : Char) :
    decFold (ds ++ [c]) = decFold ds * 10 + (c.toNat - 48) := by
  rw [decFold, List.foldl_append]
  rfl

theorem natDigitsAux_spec :
    ∀ (fuel n : Nat), n < 10 ^ (fuel + 1) →
      natDigitsAux (fuel + 1) n ≠ [] ∧
      (∀ c ∈ natDigitsAux (fuel + 1) n, c.isDigit = true) ∧
      decFold (natDigitsAux (fuel + 1) n) = n := by
  intro fuel
  induction fuel with
  | zero =>
    intro n hn
    have h10 : n < 10 := by simpa using hn
    rw [natDigitsAux, if_pos h10]
    refine ⟨by simp, ?_, ?_⟩
    · intro c hc
      rcases List.mem_singleton.mp hc with h
      exact h ▸ digitChar_isDigit h10
    · rw [decFold, List.foldl_cons, List.foldl_nil, digitChar_toNat h10]
      omega
  | succ f ih =>
    intro n hn
    by_cases h10 : n < 10
    · rw [natDigitsAux, if_pos h10]
      refine ⟨by simp, ?_, ?_⟩
      · intro c hc
        rcases List.mem_singleton.mp hc with h
        exact h ▸ digitChar_isDigit h10
      · rw [decFold, List.foldl_cons, List.foldl_nil, digitChar_toNat h10]
        omega
    · rw [natDigitsAux, if_neg h10]
      have hdiv : n / 10 < 10 ^ (f + 1) := by
        rw [Nat.div_lt_iff_lt_mul (by norm_num)]
        calc n < 10 ^ (f + 1 + 1) := hn
        _ = 10 ^ (f + 1) * 10 := by ring
      obtain ⟨hne, hdig, hfold⟩ := ih (n / 10) hdiv
      have hm10 : n % 10 < 10 := Nat.mod_lt _ (by norm_num)
      refine ⟨by simp, ?_, ?_⟩
      · intro c hc
        rcases List.mem_append.mp hc with h | h
        · exact hdig c h
        · rcases List.mem_singleton.mp h with h
          exact h ▸ digitChar_isDigit hm10
      · rw [decFold_append_digit, hfold, digitChar_toNat hm10]
        omega

theorem natRepr_spec (n : Nat) :
    (natDigitsAux (n + 1) n) ≠ [] ∧
    (∀ c ∈ natDigitsAux (n + 1) n, c.isDigit = true) ∧
    decFold (natDigitsAux (n + 1) n) = n := by
  refine natDigitsAux_spec n n ?_
  calc n < 10 ^ n := Nat.lt_pow_self (by norm_num) n
  _ ≤ 10 ^ (n + 1) := Nat.pow_le_pow_right (by norm_num) (Nat.le_succ n)

theorem natRepr_toList (n : Nat) : (natRepr n).toList = natDigitsAux (n + 1) n := rfl

theorem isDigit_ne_dot {c : Char} (h : c.isDigit = true) : c ≠ '.' := by
  intro he
  subst he
  cases h

theorem isDigit_ne_plus {c : Char} (h : c.isDigit = true) : c ≠ '+' := by
  intro he
  subst he
  cases h

theorem natRepr_ne_empty (n : Nat) : natRepr n ≠ "" := by
  intro h
  have := congrArg String.toList h
  rw [natRepr_toList] at this
  exact (natRepr_spec n).1 this

theorem natRepr_no_dot (n : Nat) : '.' ∉ (natRepr n).toList := by
  intro h
  rw [natRepr_toList] at h
  exact isDigit_ne_dot ((natRepr_spec n).2.1 _ h) rfl

theorem parseUsize_natRepr {n : Nat} (h : n < USIZE) :
    parseUsize (natRepr n) = some n := by
  obtain ⟨hne, hdig, hfold⟩ := natRepr_spec n
  rw [parseUsize]
  have hhead : (natRepr n).toList.head? ≠ some '+' := by
    rw [natRepr_toList]
    rcases hd : natDigitsAux (n + 1) n with _ | ⟨c, rest⟩
    · exact absurd hd hne
    · rw [List.head?_cons]
      intro hc
      have hcd : c.isDigit = true := hdig c (hd ▸ List.mem_cons_self _ _)
      exact isDigit_ne_plus hcd (Option.some.injEq .. ▸ hc)
  rw [if_neg hhead]
  simp only [natRepr_toList]
  rw [if_pos ⟨hne, List.all_eq_true.mpr (fun c hc => hdig c hc)⟩]
  show (if decFold (natDigitsAux (n + 1) n) < USIZE then
    some (decFold (natDigitsAux (n + 1) n)) else none) = some n
  rw [hfold, if_pos h]

/-! ### Path algebra -/

theorem string_length_append (s t : String) : (s ++ t).length = s.length + t.length := by
  show (s ++ t).data.length = s.data.length + t.data.length
  rw [String.data_append, List.length_append]

theorem childPath_empty_left (k : String) : childPath "" k = k := rfl

theorem childPath_of_ne {p : String} (hp : p ≠ "") (k : String) :
    childPath p k = p ++ "." ++ k := if_neg hp

theorem string_append_dot_ne_empty (p k : String) : p ++ "." ++ k ≠ "" := by
  intro h
  have hlen := congrArg String.length h
  rw [string_length_append, string_length_append] at hlen
  have h1 : (".").length = 1 := rfl
  have h0 : ("").length = 0 := rfl
  rw [h1, h0] at hlen
  omega

theorem childPath_ne_empty {k : String} (hk : k ≠ "") (p : String) : childPath p k ≠ "" := by
  by_cases hp : p = ""
  · subst hp
    rw [childPath_empty_left]
    exact hk
  · rw [childPath_of_ne hp]
    exact string_append_dot_ne_empty p k

/-- Prepend a path prefix to a (possibly empty) record path. -/
def addPrefix (p r : String) : String :=
  if r = "" then p else childPath p r

theorem addPrefix_empty (p : String) : addPrefix p "" = p := rfl

theorem addPrefix_of_ne {r : String} (hr : r ≠ "") (p : String) :
    addPrefix p r = childPath p r := if_neg hr

theorem childPath_assoc {q : String} (hq : q ≠ "") (p k : String) :
    childPath (childPath p q) k = childPath p (childPath q k) := by
  by_cases hp : p = ""
  · subst hp
    rw [childPath_empty_left, childPath_empty_left]
  · have hpq : childPath p q ≠ "" := childPath_ne_empty hq p
    rw [childPath_of_ne hpq, childPath_of_ne hp, childPath_of_ne hp, childPath_of_ne hq]
    simp only [String.append_assoc]

theorem addPrefix_comp {k : String} (hk : k ≠ "") (p r : String) :
    addPrefix (childPath p k) r = addPrefix p (addPrefix k r) := by
  by_cases hr : r = ""
  · rw [hr, addPrefix_empty, addPrefix_empty, addPrefix_of_ne hk]
  · have hkr : childPath k r ≠ "" := childPath_ne_empty hr k
    rw [addPrefix_of_ne hr, addPrefix_of_ne hr, addPrefix_of_ne hkr]
    exact childPath_assoc hk p r

theorem splitDot_childPath {k : String} (hk1 : k ≠ "") (hk2 : '.' ∉ k.toList)
    (s : String) : splitDot (childPath k s) = k :: splitDot s := by
  rw [childPath_of_ne hk1]
  have htl : (k ++ "." ++ s).toList = k.toList ++ '.' :: s.toList := by
    rw [toList_append, toList_append, List.append_assoc]
    rfl
  rw [splitDot, htl]
  have hsplit : (k.toList ++ '.' :: s.toList).splitOn '.'
      = k.toList :: s.toList.splitOn '.' := by
    unfold List.splitOn
    exact List.splitOnP_first _ _ (fun c hc => by
      simp only [beq_iff_eq]
      exact fun he => hk2 (he ▸ hc)) '.' (by simp) _
  rw [hsplit, List.map_cons, List.filter_cons]
  have hkeep : (k.toList.asString ≠ "") := by
    intro h
    exact hk1 (by simpa using h)
  rw [if_pos (by simpa using hkeep)]
  rw [toList_asString]
  rfl

/-- The key conditions under which the dotted-path grammar is
faithful: non-empty, dot-free, and not parseable as an array index. -/
def safeKey (k : String) : Prop :=
  k ≠ "" ∧ '.' ∉ k.toList ∧ parseUsize k = none

mutual

/-- Well-formed tree for the round-trip law: object keys are strictly
sorted (the `BTreeMap` invariant) and safe for the dotted-path grammar,
and no `Null` occurs strictly inside the tree. -/
def nice : JVal → Prop
  | JVal.null => True
  | JVal.bool _ => True
  | JVal.num _ => True
  | JVal.str _ => True
  | JVal.arr xs => niceArr xs
  | JVal.obj kvs => keysSorted kvs = true ∧ niceKV kvs
termination_by v => sizeOf v

def niceArr : List JVal → Prop
  | [] => True
  | x :: xs => x ≠ JVal.null ∧ nice x ∧ niceArr xs
termination_by l => sizeOf l

def niceKV : List (String × JVal) → Prop
  | [] => True
  | (k, v) :: rest => safeKey k ∧ v ≠ JVal.null ∧ nice v ∧ niceKV rest
termination_by l => sizeOf l
decreasing_by
  · simp only [List.cons.sizeOf_spec, Prod.mk.sizeOf_spec]
    omega
  · simp only [List.cons.sizeOf_spec, Prod.mk.sizeOf_spec]
    omega

end

mutual

/-- Compatibility of two trees for the round-trip law: paired arrays
shrink by at most one element and stay within `usize` index range, and
the relation holds recursively on object values with a common key and
on array elements at a common index. -/
def rtCompat : JVal → JVal → Prop
  | JVal.obj om, JVal.obj nm => rtCompatKV om nm
  | JVal.arr oa, JVal.arr na =>
    oa.length ≤ na.length + 1 ∧ oa.length ≤ USIZE ∧ na.length ≤ USIZE ∧ rtCompatArr oa na
  | _, _ => True
termination_by a b => sizeOf a + sizeOf b

def rtCompatArr : List JVal → List JVal → Prop
  | x :: xs, y :: ys => rtCompat x y ∧ rtCompatArr xs ys
  | _, _ => True
termination_by a b => sizeOf a + sizeOf b

def rtCompatKV : List (String × JVal) → List (String × JVal) → Prop
  | _, [] => True
  | om, (k, nv) :: rest =>
    (match h : lookupKV om k with
     | some ov => rtCompat ov nv
     | none => True) ∧ rtCompatKV om rest
termination_by a b => sizeOf a + sizeOf b
decreasing_by
  · have h1 : sizeOf ov < sizeOf om := sizeOf_lookupKV h
    simp only [List.cons.sizeOf_spec, Prod.mk.sizeOf_spec]
    omega
  · simp only [List.cons.sizeOf_spec, Prod.mk.sizeOf_spec]
    omega

end

/-! ### Accessors for the well-formedness predicates -/

theorem lookupKV_mem : ∀ {kvs : List (String × JVal)} {k : String} {v : JVal},
    lookupKV kvs k = some v → (k, v) ∈ kvs := by
  intro kvs
  induction kvs with
  | nil => intro k v h; cases h
  | cons hd rest ih =>
    intro k v h
    obtain ⟨k1, v1⟩ := hd
    by_cases he : k1 = k
    · rw [lookupKV, if_pos he] at h
      cases h
      subst he
      exact List.mem_cons_self _ _
    · rw [lookupKV, if_neg he] at h
      exact List.mem_cons_of_mem _ (ih h)

theorem niceKV_mem : ∀ {kvs : List (String × JVal)} {k : String} {v : JVal},
    niceKV kvs → (k, v) ∈ kvs → safeKey k ∧ v ≠ JVal.null ∧ nice v := by
  intro kvs
  induction kvs with
  | nil => intro k v _ hm; cases hm
  | cons hd rest ih =>
    intro k v hn hm
    obtain ⟨k1, v1⟩ := hd
    rw [niceKV] at hn
    obtain ⟨hsafe, hnn, hnv, hrest⟩ := hn
    rcases List.mem_cons.mp hm with h | h
    · obtain ⟨hk, hv⟩ := Prod.mk.injEq .. ▸ h
      subst hk
      subst hv
      exact ⟨hsafe, hnn, hnv⟩
    · exact ih hrest h

theorem niceArr_getD : ∀ {xs : List JVal}, niceArr xs → ∀ i, nice (xs.getD i JVal.null) := by
  intro xs
  induction xs with
  | nil =>
    intro _ i
    show nice JVal.null
    rw [nice]
    exact trivial
  | cons x rest ih =>
    intro hn i
    rw [niceArr] at hn
    cases i with
    | zero => exact hn.2.1
    | succ j =>
      rw [List.getD_cons_succ]
      exact ih hn.2.2 j

theorem niceArr_getD_ne_null : ∀ {xs : List JVal}, niceArr xs → ∀ {i}, i < xs.length →
    xs.getD i JVal.null ≠ JVal.null := by
  intro xs
  induction xs with
  | nil => intro _ i hi; cases hi
  | cons x rest ih =>
    intro hn i hi
    rw [niceArr] at hn
    cases i with
    | zero => exact hn.1
    | succ j =>
      rw [List.getD_cons_succ]
      exact ih hn.2.2 (by simpa using hi)

theorem rtCompatKV_lookup :
    ∀ {l om : List (String × JVal)} {k : String} {nv ov : JVal},
      rtCompatKV om l → (k, nv) ∈ l → lookupKV om k = some ov → rtCompat ov nv := by
  intro l
  induction l with
  | nil => intro om k nv ov _ hm; cases hm
  | cons hd rest ih =>
    intro om k nv ov hc hm hl
    obtain ⟨k1, nv1⟩ := hd
    rw [rtCompatKV] at hc
    obtain ⟨hhead, hrest⟩ := hc
    rcases List.mem_cons.mp hm with h | h
    · obtain ⟨hk, hv⟩ := Prod.mk.injEq .. ▸ h
      subst hk
      subst hv
      rw [hl] at hhead
      exact hhead
    · exact ih hrest h hl

theorem rtCompatArr_getD :
    ∀ {oa na : List JVal}, rtCompatArr oa na →
      ∀ i, rtCompat (oa.getD i JVal.null) (na.getD i JVal.null) := by
  intro oa
  induction oa with
  | nil =>
    intro na _ i
    show rtCompat JVal.null (na.getD i JVal.null)
    rcases na.getD i JVal.null with _ | b | n | s | xs | kvs <;> simp [rtCompat]
  | cons x xs ih =>
    intro na hc i
    cases na with
    | nil =>
      show rtCompat ((x :: xs).getD i JVal.null) JVal.null
      rcases (x :: xs).getD i JVal.null with _ | b | n | s | ys | kvs <;> simp [rtCompat]
    | cons y ys =>
      rw [rtCompatArr] at hc
      cases i with
      | zero => exact hc.1
      | succ j =>
        rw [List.getD_cons_succ, List.getD_cons_succ]
        exact ih hc.2 j

/-! ### Association-list algebra under the sorted-keys invariant -/

theorem keysSorted_cons_of {l : List (String × JVal)} {b : String} {w : JVal}
    (hl : keysSorted l = true) (hb : ∀ kv ∈ l, strLt b kv.1 = true) :
    keysSorted ((b, w) :: l) = true := by
  cases l with
  | nil => rfl
  | cons hd t =>
    obtain ⟨k2, v2⟩ := hd
    rw [keysSorted, Bool.and_eq_true]
    exact ⟨hb (k2, v2) (List.mem_cons_self _ _), hl⟩

theorem mem_insertKV :
    ∀ {kvs : List (String × JVal)} {k : String} {v : JVal} {kv : String × JVal},
      kv ∈ insertKV kvs k v → kv.1 = k ∨ kv ∈ kvs := by
  intro kvs
  induction kvs with
  | nil =>
    intro k v kv hm
    rw [insertKV] at hm
    exact Or.inl (List.mem_singleton.mp hm ▸ rfl)
  | cons hd rest ih =>
    intro k v kv hm
    obtain ⟨k1, v1⟩ := hd
    by_cases he : k = k1
    · rw [insertKV, if_pos he] at hm
      rcases List.mem_cons.mp hm with h | h
      · exact Or.inl (h ▸ rfl)
      · exact Or.inr (List.mem_cons_of_mem _ h)
    · rw [insertKV, if_neg he] at hm
      by_cases hlt : strLt k k1 = true
      · rw [if_pos hlt] at hm
        rcases List.mem_cons.mp hm with h | h
        · exact Or.inl (h ▸ rfl)
        · exact Or.inr h
      · rw [if_neg hlt] at hm
        rcases List.mem_cons.mp hm with h | h
        · exact Or.inr (h ▸ List.mem_cons_self _ _)
        · rcases ih h with h2 | h2
          · exact Or.inl h2
          · exact Or.inr (List.mem_cons_of_mem _ h2)

theorem keysSorted_insertKV :
    ∀ {kvs : List (String × JVal)} (k : String) (v : JVal),
      keysSorted kvs = true → keysSorted (insertKV kvs k v) = true := by
  intro kvs
  induction kvs with
  | nil => intro k v _; rfl
  | cons hd rest ih =>
    intro k v hs
    obtain ⟨k1, v1⟩ := hd
    by_cases he : k = k1
    · rw [insertKV, if_pos he]
      exact keysSorted_cons_of (keysSorted_tail hs)
        (fun kv hm => he ▸ keysSorted_head_lt rest k1 v1 hs kv hm)
    · rw [insertKV, if_neg he]
      by_cases hlt : strLt k k1 = true
      · rw [if_pos hlt, keysSorted, Bool.and_eq_true]
        exact ⟨hlt, hs⟩
      · rw [if_neg hlt]
        have hk1k : strLt k1 k = true := by
          rcases strLt_total he with h | h
          · exact absurd h hlt
          · exact h
        refine keysSorted_cons_of (ih k v (keysSorted_tail hs)) ?_
        intro kv hm
        rcases mem_insertKV hm with h | h
        · exact h ▸ hk1k
        · exact keysSorted_head_lt rest k1 v1 hs kv h

theorem mem_setKV_key :
    ∀ {kvs : List (String × JVal)} {k : String} {v : JVal} {kv : String × JVal},
      kv ∈ setKV kvs k v → ∃ w, (kv.1, w) ∈ kvs := by
  intro kvs
  induction kvs with
  | nil => intro k v kv hm; cases hm
  | cons hd rest ih =>
    intro k v kv hm
    obtain ⟨k1, v1⟩ := hd
    by_cases he : k1 = k
    · rw [setKV, if_pos he] at hm
      rcases List.mem_cons.mp hm with h | h
      · exact ⟨v1, by rw [h]; exact List.mem_cons_self _ _⟩
      · exact ⟨kv.2, List.mem_cons_of_mem _ h⟩
    · rw [setKV, if_neg he] at hm
      rcases List.mem_cons.mp hm with h | h
      · exact ⟨v1, by rw [h]; exact List.mem_cons_self _ _⟩
      · obtain ⟨w, hw⟩ := ih h
        exact ⟨w, List.mem_cons_of_mem _ hw⟩

theorem keysSorted_setKV :
    ∀ {kvs : List (String × JVal)} (k : String) (v : JVal),
      keysSorted kvs = true → keysSorted (setKV kvs k v) = true := by
  intro kvs
  induction kvs with
  | nil => intro k v _; rfl
  | cons hd rest ih =>
    intro k v hs
    obtain ⟨k1, v1⟩ := hd
    by_cases he : k1 = k
    · rw [setKV, if_pos he]
      exact keysSorted_cons_of (keysSorted_tail hs)
        (fun kv hm => keysSorted_head_lt rest k1 v1 hs kv hm)
    · rw [setKV, if_neg he]
      refine keysSorted_cons_of (ih k v (keysSorted_tail hs)) ?_
      intro kv hm
      obtain ⟨w, hw⟩ := mem_setKV_key hm
      exact keysSorted_head_lt rest k1 v1 hs (kv.1, w) hw

theorem mem_removeKV :
    ∀ {kvs : List (String × JVal)} {k : String} {kv : String × JVal},
      kv ∈ removeKV kvs k → kv ∈ kvs := by
  intro kvs
  induction kvs with
  | nil => intro k kv hm; cases hm
  | cons hd rest ih =>
    intro k kv hm
    obtain ⟨k1, v1⟩ := hd
    by_cases he : k = k1
    · rw [removeKV, if_pos he] at hm
      exact List.mem_cons_of_mem _ hm
    · rw [removeKV, if_neg he] at hm
      rcases List.mem_cons.mp hm with h | h
      · exact h ▸ List.mem_cons_self _ _
      · exact List.mem_cons_of_mem _ (ih h)

theorem keysSorted_removeKV :
    ∀ {kvs : List (String × JVal)} (k : String),
      keysSorted kvs = true → keysSorted (removeKV kvs k) = true := by
  intro kvs
  induction kvs with
  | nil => intro k _; rfl
  | cons hd rest ih =>
    intro k hs
    obtain ⟨k1, v1⟩ := hd
    by_cases he : k = k1
    · rw [removeKV, if_pos he]
      exact keysSorted_tail hs
    · rw [removeKV, if_neg he]
      exact keysSorted_cons_of (ih k (keysSorted_tail hs))
        (fun kv hm => keysSorted_head_lt rest k1 v1 hs kv (mem_removeKV hm))

theorem lookup_none_of_all_lt :
    ∀ {l : List (String × JVal)} {b : String},
      (∀ kv ∈ l, strLt b kv.1 = true) → lookupKV l b = none := by
  intro l
  induction l with
  | nil => intro b _; rfl
  | cons hd rest ih =>
    intro b hb
    obtain ⟨k1, v1⟩ := hd
    have h1 : strLt b k1 = true := hb (k1, v1) (List.mem_cons_self _ _)
    rw [lookupKV, if_neg (fun he => strLt_ne h1 he.symm)]
    exact ih (fun kv hm => hb kv (List.mem_cons_of_mem _ hm))

/-- `BTreeMap::insert` on a key already present is an in-place value
update: the new pair sits exactly where the old one was. -/
theorem insertKV_eq_setKV :
    ∀ {kvs : List (String × JVal)} {k : String} {w : JVal} (v : JVal),
      keysSorted kvs = true → lookupKV kvs k = some w →
      insertKV kvs k v = setKV kvs k v := by
  intro kvs
  induction kvs with
  | nil => intro k w v _ hl; cases hl
  | cons hd rest ih =>
    intro k w v hs hl
    obtain ⟨k1, v1⟩ := hd
    by_cases he : k1 = k
    · rw [insertKV, if_pos he.symm, setKV, if_pos he]
      rw [he]
    · rw [lookupKV, if_neg he] at hl
      have hmem : (k, w) ∈ rest := lookupKV_mem hl
      have hlt : strLt k1 k = true := keysSorted_head_lt rest k1 v1 hs (k, w) hmem
      have hnlt : ¬ strLt k k1 = true := fun h => strLt_asymm h hlt
      rw [insertKV, if_neg (fun h => he h.symm), if_neg hnlt, setKV, if_neg he,
        ih v (keysSorted_tail hs) hl]

theorem lookup_setKV_of_some :
    ∀ {kvs : List (String × JVal)} {k : String} {w : JVal} (v : JVal),
      lookupKV kvs k = some w → lookupKV (setKV kvs k v) k = some v := by
  intro kvs
  induction kvs with
  | nil => intro k w v hl; cases hl
  | cons hd rest ih =>
    intro k w v hl
    obtain ⟨k1, v1⟩ := hd
    by_cases he : k1 = k
    · rw [setKV, if_pos he, lookupKV, if_pos he]
    · rw [lookupKV, if_neg he] at hl
      rw [setKV, if_neg he, lookupKV, if_neg he]
      exact ih v hl

theorem lookup_setKV_ne :
    ∀ {kvs : List (String × JVal)} {k k' : String} (v : JVal), k' ≠ k →
      lookupKV (setKV kvs k v) k' = lookupKV kvs k' := by
  intro kvs
  induction kvs with
  | nil => intro k k' v _; rfl
  | cons hd rest ih =>
    intro k k' v hne
    obtain ⟨k1, v1⟩ := hd
    by_cases he : k1 = k
    · rw [setKV, if_pos he]
      show (if k1 = k' then some v else lookupKV rest k')
          = if k1 = k' then some v1 else lookupKV rest k'
      rw [if_neg (fun h : k1 = k' => hne (h.symm.trans he)),
        if_neg (fun h : k1 = k' => hne (h.symm.trans he))]
    · rw [setKV, if_neg he]
      show (if k1 = k' then some v1 else lookupKV (setKV rest k v) k')
          = if k1 = k' then some v1 else lookupKV rest k'
      by_cases h2 : k1 = k'
      · rw [if_pos h2, if_pos h2]
      · rw [if_neg h2, if_neg h2]
        exact ih v hne

theorem lookup_insertKV_ne :
    ∀ {kvs : List (String × JVal)} {k k' : String} (v : JVal), k' ≠ k →
      lookupKV (insertKV kvs k v) k' = lookupKV kvs k' := by
  intro kvs
  induction kvs with
  | nil =>
    intro k k' v hne
    rw [insertKV]
    show (if k = k' then some v else lookupKV [] k') = lookupKV [] k'
    rw [if_neg (fun h : k = k' => hne h.symm)]
  | cons hd rest ih =>
    intro k k' v hne
    obtain ⟨k1, v1⟩ := hd
    by_cases he : k = k1
    · rw [insertKV, if_pos he]
      show (if k = k' then some v else lookupKV rest k')
          = if k1 = k' then some v1 else lookupKV rest k'
      rw [if_neg (fun h : k = k' => hne h.symm),
        if_neg (fun h : k1 = k' => hne (h.symm.trans he.symm))]
    · rw [insertKV, if_neg he]
      by_cases hlt : strLt k k1 = true
      · rw [if_pos hlt]
        show (if k = k' then some v else lookupKV ((k1, v1) :: rest) k')
            = lookupKV ((k1, v1) :: rest) k'
        rw [if_neg (fun h : k = k' => hne h.symm)]
      · rw [if_neg hlt]
        show (if k1 = k' then some v1 else lookupKV (insertKV rest k v) k')
            = if k1 = k' then some v1 else lookupKV rest k'
        by_cases h2 : k1 = k'
        · rw [if_pos h2, if_pos h2]
        · rw [if_neg h2, if_neg h2]
          exact ih v hne

theorem setKV_setKV :
    ∀ {kvs : List (String × JVal)} (k : String) (a b : JVal),
      setKV (setKV kvs k a) k b = setKV kvs k b := by
  intro kvs
  induction kvs with
  | nil => intro k a b; rfl
  | cons hd rest ih =>
    intro k a b
    obtain ⟨k1, v1⟩ := hd
    by_cases he : k1 = k
    · rw [setKV, if_pos he, setKV, if_pos he, setKV, if_pos he]
    · rw [setKV, if_neg he, setKV, if_neg he, setKV, if_neg he, ih]

theorem lookup_removeKV_self :
    ∀ {kvs : List (String × JVal)} (k : String),
      keysSorted kvs = true → lookupKV (removeKV kvs k) k = none := by
  intro kvs
  induction kvs with
  | nil => intro k _; rfl
  | cons hd rest ih =>
    intro k hs
    obtain ⟨k1, v1⟩ := hd
    by_cases he : k = k1
    · rw [removeKV, if_pos he]
      subst he
      exact lookup_none_of_all_lt (fun kv hm => keysSorted_head_lt rest k v1 hs kv hm)
    · rw [removeKV, if_neg he, lookupKV, if_neg (fun h => he h.symm)]
      exact ih k (keysSorted_tail hs)

theorem lookup_removeKV_ne :
    ∀ {kvs : List (String × JVal)} {k k' : String}, k' ≠ k →
      lookupKV (removeKV kvs k) k' = lookupKV kvs k' := by
  intro kvs
  induction kvs with
  | nil => intro k k' _; rfl
  | cons hd rest ih =>
    intro k k' hne
    obtain ⟨k1, v1⟩ := hd
    by_cases he : k = k1
    · rw [removeKV, if_pos he]
      show lookupKV rest k' = if k1 = k' then some v1 else lookupKV rest k'
      rw [if_neg (fun h : k1 = k' => hne (h.symm.trans he.symm))]
    · rw [removeKV, if_neg he]
      show (if k1 = k' then some v1 else lookupKV (removeKV rest k) k')
          = if k1 = k' then some v1 else lookupKV rest k'
      by_cases h2 : k1 = k'
      · rw [if_pos h2, if_pos h2]
      · rw [if_neg h2, if_neg h2]
        exact ih hne

/-- Two key-sorted association lists with the same lookup function are
equal (extensionality for the `BTreeMap` model). -/
theorem ext_sorted :
    ∀ {l1 l2 : List (String × JVal)},
      keysSorted l1 = true → keysSorted l2 = true →
      (∀ k, lookupKV l1 k = lookupKV l2 k) → l1 = l2 := by
  intro l1
  induction l1 with
  | nil =>
    intro l2 _ _ hl
    cases l2 with
    | nil => rfl
    | cons hd t =>
      obtain ⟨k2, v2⟩ := hd
      have := hl k2
      rw [lookupKV, lookupKV, if_pos rfl] at this
      cases this
  | cons hd t1 ih =>
    intro l2 hs1 hs2 hl
    obtain ⟨k1, v1⟩ := hd
    cases l2 with
    | nil =>
      have := hl k1
      rw [lookupKV, lookupKV, if_pos rfl] at this
      cases this
    | cons hd2 t2 =>
      obtain ⟨k2, v2⟩ := hd2
      have hkeys : k1 = k2 := by
        by_contra hne
        have h1 : lookupKV ((k2, v2) :: t2) k1 = some v1 := by
          rw [← hl k1, lookupKV, if_pos rfl]
        have h2 : lookupKV ((k1, v1) :: t1) k2 = some v2 := by
          rw [hl k2, lookupKV, if_pos rfl]
        rw [lookupKV, if_neg (fun h => hne h.symm)] at h1
        rw [lookupKV, if_neg hne] at h2
        have hm1 : (k1, v1) ∈ t2 := lookupKV_mem h1
        have hm2 : (k2, v2) ∈ t1 := lookupKV_mem h2
        exact strLt_asymm (keysSorted_head_lt t2 k2 v2 hs2 (k1, v1) hm1)
          (keysSorted_head_lt t1 k1 v1 hs1 (k2, v2) hm2)
      subst hkeys
      have hv : v1 = v2 := by
        have := hl k1
        rw [lookupKV, lookupKV, if_pos rfl, if_pos rfl] at this
        exact Option.some.injEq .. ▸ this
      subst hv
      have htails : ∀ k, lookupKV t1 k = lookupKV t2 k := by
        intro k
        by_cases he : k1 = k
        · subst he
          rw [lookup_none_of_all_lt (fun kv hm => keysSorted_head_lt t1 k1 v1 hs1 kv hm),
            lookup_none_of_all_lt (fun kv hm => keysSorted_head_lt t2 k1 v1 hs2 kv hm)]
        · have := hl k
          rw [lookupKV, lookupKV, if_neg he, if_neg he] at this
          exact this
      rw [ih (keysSorted_tail hs1) (keysSorted_tail hs2) htails]

/-! ### Shifting record paths under a prefix -/

/-- Re-root a change record under path prefix `p`. -/
def shiftPath (p : String) (r : TreeDiff) : TreeDiff := { r with path := addPrefix p r.path }

theorem shiftPath_path (p : String) (r : TreeDiff) :
    (shiftPath p r).path = addPrefix p r.path := rfl

theorem shiftPath_comp {k : String} (hk : k ≠ "") (p : String) (r : TreeDiff) :
    shiftPath p (shiftPath k r) = shiftPath (childPath p k) r := by
  simp [shiftPath, addPrefix_comp hk]

/-- Shape invariant of diff-produced change records: a root-path record
is an add/update carrying a value, and a non-root path survives
`split('.')`-parsing with at least one component. -/
def GoodRec (r : TreeDiff) : Prop :=
  (r.path = "" → (r.change_type = "add" ∨ r.change_type = "update") ∧
    ∃ v, r.new_value = some v) ∧
  (r.path ≠ "" → splitDot r.path ≠ [])

/-- Any record re-rooted under a safe key satisfies the shape invariant. -/
theorem goodRec_shift {k : String} (hk1 : k ≠ "") (hk2 : '.' ∉ k.toList) (r : TreeDiff) :
    GoodRec (shiftPath k r) := by
  constructor
  · intro hp
    exfalso
    rw [shiftPath_path] at hp
    by_cases h : r.path = ""
    · rw [h, addPrefix_empty] at hp
      exact hk1 hp
    · rw [addPrefix_of_ne h] at hp
      exact childPath_ne_empty h k hp
  · intro _
    rw [shiftPath_path]
    by_cases h : r.path = ""
    · rw [h, addPrefix_empty, splitDot_single hk1 hk2]
      simp
    · rw [addPrefix_of_ne h, splitDot_childPath hk1 hk2]
      simp

theorem map_congr_on {α β : Type} {l : List α} {f g : α → β}
    (h : ∀ x ∈ l, f x = g x) : l.map f = l.map g := by
  induction l with
  | nil => rfl
  | cons x xs ih =>
    rw [List.map_cons, List.map_cons, h x (List.mem_cons_self _ _),
      ih (fun y hy => h y (List.mem_cons_of_mem _ hy))]

theorem flatMap_congr_on {α β : Type} {l : List α} {f g : α → List β}
    (h : ∀ x ∈ l, f x = g x) : l.flatMap f = l.flatMap g := by
  induction l with
  | nil => rfl
  | cons x xs ih =>
    rw [List.flatMap_cons, List.flatMap_cons, h x (List.mem_cons_self _ _),
      ih (fun y hy => h y (List.mem_cons_of_mem _ hy))]

theorem map_flatMap_own {α β γ : Type} (g : β → γ) (f : α → List β) :
    ∀ l : List α, (l.flatMap f).map g = l.flatMap (fun x => (f x).map g) := by
  intro l
  induction l with
  | nil => rfl
  | cons x xs ih => rw [List.flatMap_cons, List.flatMap_cons, List.map_append, ih]

/-- Everything `diff_values` does with its `path` argument is prefix
every emitted record's path: the records of `diff_values o n p` are
those of `diff_values o n ""` re-rooted under `p`. -/
theorem diff_values_shift :
    ∀ o n : JVal, nice o → nice n → ∀ p : String,
      diff_values o n p = (diff_values o n "").map (shiftPath p) := by
  intro o n
  induction o, n using jval_pair_strong_induction with
  | step a b ih =>
    intro ha hb p
    cases a with
    | null =>
      cases b with
      | null => simp [diff_values]
      | bool b2 => simp [diff_values, shiftPath, addPrefix_empty]
      | num n2 => simp [diff_values, shiftPath, addPrefix_empty]
      | str s2 => simp [diff_values, shiftPath, addPrefix_empty]
      | arr ys => simp [diff_values, shiftPath, addPrefix_empty]
      | obj nm => simp [diff_values, shiftPath, addPrefix_empty]
    | bool a2 =>
      cases b with
      | null => simp [diff_values, shiftPath, addPrefix_empty]
      | bool b2 =>
        by_cases he : a2 = b2 <;> simp [diff_values, he, shiftPath, addPrefix_empty]
      | num n2 => simp [diff_values, shiftPath, addPrefix_empty]
      | str s2 => simp [diff_values, shiftPath, addPrefix_empty]
      | arr ys => simp [diff_values, shiftPath, addPrefix_empty]
      | obj nm => simp [diff_values, shiftPath, addPrefix_empty]
    | num a2 =>
      cases b with
      | null => simp [diff_values, shiftPath, addPrefix_empty]
      | bool b2 => simp [diff_values, shiftPath, addPrefix_empty]
      | num n2 =>
        by_cases he : a2 = n2 <;> simp [diff_values, he, shiftPath, addPrefix_empty]
      | str s2 => simp [diff_values, shiftPath, addPrefix_empty]
      | arr ys => simp [diff_values, shiftPath, addPrefix_empty]
      | obj nm => simp [diff_values, shiftPath, addPrefix_empty]
    | str a2 =>
      cases b with
      | null => simp [diff_values, shiftPath, addPrefix_empty]
      | bool b2 => simp [diff_values, shiftPath, addPrefix_empty]
      | num n2 => simp [diff_values, shiftPath, addPrefix_empty]
      | str s2 =>
        by_cases he : a2 = s2 <;> simp [diff_values, he, shiftPath, addPrefix_empty]
      | arr ys => simp [diff_values, shiftPath, addPrefix_empty]
      | obj nm => simp [diff_values, shiftPath, addPrefix_empty]
    | arr xs =>
      cases b with
      | null => simp [diff_values, shiftPath, addPrefix_empty]
      | bool b2 => simp [diff_values, shiftPath, addPrefix_empty]
      | num n2 => simp [diff_values, shiftPath, addPrefix_empty]
      | str s2 => simp [diff_values, shiftPath, addPrefix_empty]
      | obj nm => simp [diff_values, shiftPath, addPrefix_empty]
      | arr ys =>
        rw [nice] at ha hb
        rw [diff_values, diff_values, map_flatMap_own]
        refine flatMap_congr_on ?_
        intro i hi
        rw [childPath_empty_left]
        have hni : natRepr i ≠ "" := natRepr_ne_empty i
        have h1 := sizeOf_getD_lt xs i
        have h2 := sizeOf_getD_lt ys i
        have hsz : sizeOf (xs.getD i JVal.null) + sizeOf (ys.getD i JVal.null)
            < sizeOf (JVal.arr xs) + sizeOf (JVal.arr ys) := by
          simp only [JVal.arr.sizeOf_spec]
          omega
        have hno : nice (xs.getD i JVal.null) := niceArr_getD ha i
        have hnn : nice (ys.getD i JVal.null) := niceArr_getD hb i
        rw [ih _ _ hsz hno hnn (childPath p (natRepr i)),
          ih _ _ hsz hno hnn (natRepr i), List.map_map]
        exact map_congr_on (fun r _ => (shiftPath_comp hni p r).symm)
    | obj om =>
      cases b with
      | null => simp [diff_values, shiftPath, addPrefix_empty]
      | bool b2 => simp [diff_values, shiftPath, addPrefix_empty]
      | num n2 => simp [diff_values, shiftPath, addPrefix_empty]
      | str s2 => simp [diff_values, shiftPath, addPrefix_empty]
      | arr ys => simp [diff_values, shiftPath, addPrefix_empty]
      | obj nm =>
        rw [nice] at ha hb
        obtain ⟨hsom, hnom⟩ := ha
        obtain ⟨hsnm, hnnm⟩ := hb
        rw [diff_values, diff_values, List.map_append, List.map_map]
        congr 1
        · refine map_congr_on ?_
          intro kv hkv
          have hmem : (kv.1, kv.2) ∈ om := List.mem_filter.mp hkv |>.1
          have hsafe : safeKey kv.1 := (niceKV_mem hnom hmem).1
          simp [shiftPath, childPath_empty_left, addPrefix_of_ne hsafe.1]
        · have key : ∀ l : List (String × JVal), niceKV l →
              (∀ kv ∈ l, sizeOf kv.2 < sizeOf (JVal.obj nm)) →
              diffObjNew om p l = (diffObjNew om "" l).map (shiftPath p) := by
            intro l
            induction l with
            | nil =>
              intro _ _
              rw [diffObjNew, diffObjNew]
              rfl
            | cons hd rest ihl =>
              obtain ⟨k, nv⟩ := hd
              intro hn hsz
              rw [niceKV] at hn
              obtain ⟨hsafe, hnn, hnice, hrest⟩ := hn
              have hszn : sizeOf nv < sizeOf (JVal.obj nm) :=
                hsz (k, nv) (List.mem_cons_self _ _)
              rw [diffObjNew, diffObjNew]
              rcases hl : lookupKV om k with _ | ov
              · rw [List.map_append]
                congr 1
                · simp [shiftPath, childPath_empty_left, addPrefix_of_ne hsafe.1]
                · exact ihl hrest (fun kv hm => hsz kv (List.mem_cons_of_mem _ hm))
              · show diff_values ov nv (childPath p k) ++ diffObjNew om p rest
                    = (diff_values ov nv (childPath "" k) ++ diffObjNew om "" rest).map
                        (shiftPath p)
                rw [List.map_append]
                congr 1
                · rw [childPath_empty_left]
                  have hov : nice ov := (niceKV_mem hnom (lookupKV_mem hl)).2.2
                  have hsz2 : sizeOf ov + sizeOf nv
                      < sizeOf (JVal.obj om) + sizeOf (JVal.obj nm) := by
                    have h4 := sizeOf_lookupKV hl
                    have h5 := hszn
                    simp only [JVal.obj.sizeOf_spec] at h5 ⊢
                    omega
                  rw [ih _ _ hsz2 hov hnice (childPath p k),
                    ih _ _ hsz2 hov hnice k, List.map_map]
                  exact map_congr_on (fun r _ => (shiftPath_comp hsafe.1 p r).symm)
                · exact ihl hrest (fun kv hm => hsz kv (List.mem_cons_of_mem _ hm))
          exact key nm hnnm (fun kv hm => sizeOf_val_lt_obj hm)

/-! ### The records emitted by `diff_values` are well-shaped -/

theorem diffObjNew_nil (om : List (String × JVal)) (p : String) :
    diffObjNew om p [] = [] := by
  rw [diffObjNew]

theorem diffObjNew_cons_some {om : List (String × JVal)} {k : String} {ov : JVal}
    (hl : lookupKV om k = some ov) (p : String) (nv : JVal)
    (rest : List (String × JVal)) :
    diffObjNew om p ((k, nv) :: rest)
      = diff_values ov nv (childPath p k) ++ diffObjNew om p rest := by
  rw [diffObjNew, hl]

theorem diffObjNew_cons_none {om : List (String × JVal)} {k : String}
    (hl : lookupKV om k = none) (p : String) (nv : JVal)
    (rest : List (String × JVal)) :
    diffObjNew om p ((k, nv) :: rest)
      = ⟨childPath p k, "add", none, some nv⟩ :: diffObjNew om p rest := by
  rw [diffObjNew, hl]
  rfl

theorem diff_null_left {n : JVal} (hn : n ≠ JVal.null) (p : String) :
    diff_values JVal.null n p = [⟨p, "add", none, some n⟩] := by
  cases n with
  | null => exact absurd rfl hn
  | bool b => simp [diff_values]
  | num m => simp [diff_values]
  | str s => simp [diff_values]
  | arr xs => simp [diff_values]
  | obj kvs => simp [diff_values]

theorem diff_null_right {o : JVal} (ho : o ≠ JVal.null) (p : String) :
    diff_values o JVal.null p = [⟨p, "remove", some o, none⟩] := by
  cases o with
  | null => exact absurd rfl ho
  | bool b => simp [diff_values]
  | num m => simp [diff_values]
  | str s => simp [diff_values]
  | arr xs => simp [diff_values]
  | obj kvs => simp [diff_values]

theorem goodRec_flat {k : String} (hk1 : k ≠ "") (hk2 : '.' ∉ k.toList)
    (ct : String) (ov nv : Option JVal) : GoodRec ⟨k, ct, ov, nv⟩ := by
  constructor
  · intro hp
    exact absurd hp hk1
  · intro _
    show splitDot k ≠ []
    rw [splitDot_single hk1 hk2]
    simp

theorem goodRec_root_update (a b : JVal) : GoodRec ⟨"", "update", some a, some b⟩ :=
  ⟨fun _ => ⟨Or.inr rfl, b, rfl⟩, fun h => absurd rfl h⟩

/-- Every record produced by diffing two non-`Null` well-formed trees at
the root path is well-shaped. -/
theorem diff_values_good :
    ∀ {o n : JVal}, o ≠ JVal.null → n ≠ JVal.null → nice o → nice n →
      ∀ r ∈ diff_values o n "", GoodRec r := by
  intro o n ho hn ha hb r hr
  cases o with
  | null => exact absurd rfl ho
  | bool a2 =>
    cases n with
    | null => exact absurd rfl hn
    | bool b2 =>
      by_cases he : a2 = b2
      · simp [diff_values, he] at hr
      · simp [diff_values, he] at hr
        subst hr
        exact goodRec_root_update _ _
    | num n2 =>
      simp [diff_values] at hr
      subst hr
      exact goodRec_root_update _ _
    | str s2 =>
      simp [diff_values] at hr
      subst hr
      exact goodRec_root_update _ _
    | arr ys =>
      simp [diff_values] at hr
      subst hr
      exact goodRec_root_update _ _
    | obj nm =>
      simp [diff_values] at hr
      subst hr
      exact goodRec_root_update _ _
  | num a2 =>
    cases n with
    | null => exact absurd rfl hn
    | bool b2 =>
      simp [diff_values] at hr
      subst hr
      exact goodRec_root_update _ _
    | num n2 =>
      by_cases he : a2 = n2
      · simp [diff_values, he] at hr
      · simp [diff_values, he] at hr
        subst hr
        exact goodRec_root_update _ _
    | str s2 =>
      simp [diff_values] at hr
      subst hr
      exact goodRec_root_update _ _
    | arr ys =>
      simp [diff_values] at hr
      subst hr
      exact goodRec_root_update _ _
    | obj nm =>
      simp [diff_values] at hr
      subst hr
      exact goodRec_root_update _ _
  | str a2 =>
    cases n with
    | null => exact absurd rfl hn
    | bool b2 =>
      simp [diff_values] at hr
      subst hr
      exact goodRec_root_update _ _
    | num n2 =>
      simp [diff_values] at hr
      subst hr
      exact goodRec_root_update _ _
    | str s2 =>
      by_cases he : a2 = s2
      · simp [diff_values, he] at hr
      · simp [diff_values, he] at hr
        subst hr
        exact goodRec_root_update _ _
    | arr ys =>
      simp [diff_values] at hr
      subst hr
      exact goodRec_root_update _ _
    | obj nm =>
      simp [diff_values] at hr
      subst hr
      exact goodRec_root_update _ _
  | arr xs =>
    cases n with
    | null => exact absurd rfl hn
    | bool b2 =>
      simp [diff_values] at hr
      subst hr
      exact goodRec_root_update _ _
    | num n2 =>
      simp [diff_values] at hr
      subst hr
      exact goodRec_root_update _ _
    | str s2 =>
      simp [diff_values] at hr
      subst hr
      exact goodRec_root_update _ _
    | obj nm =>
      simp [diff_values] at hr
      subst hr
      exact goodRec_root_update _ _
    | arr ys =>
      rw [nice] at ha hb
      rw [diff_values, List.mem_flatMap] at hr
      obtain ⟨i, hi, hmem⟩ := hr
      rw [childPath_empty_left] at hmem
      rw [diff_values_shift _ _ (niceArr_getD ha i) (niceArr_getD hb i) (natRepr i),
        List.mem_map] at hmem
      obtain ⟨r2, _, hrr⟩ := hmem
      subst hrr
      exact goodRec_shift (natRepr_ne_empty i) (natRepr_no_dot i) r2
  | obj om =>
    cases n with
    | null => exact absurd rfl hn
    | bool b2 =>
      simp [diff_values] at hr
      subst hr
      exact goodRec_root_update _ _
    | num n2 =>
      simp [diff_values] at hr
      subst hr
      exact goodRec_root_update _ _
    | str s2 =>
      simp [diff_values] at hr
      subst hr
      exact goodRec_root_update _ _
    | arr ys =>
      simp [diff_values] at hr
      subst hr
      exact goodRec_root_update _ _
    | obj nm =>
      rw [nice] at ha hb
      rw [diff_values] at hr
      rcases List.mem_append.mp hr with h | h
      · rw [List.mem_map] at h
        obtain ⟨kv, hkv, hrr⟩ := h
        have hsafe : safeKey kv.1 := (niceKV_mem ha.2 (List.mem_filter.mp hkv).1).1
        subst hrr
        exact goodRec_flat hsafe.1 hsafe.2.1 _ _ _
      · have key : ∀ l : List (String × JVal), niceKV l →
            ∀ r2 ∈ diffObjNew om "" l, GoodRec r2 := by
          intro l
          induction l with
          | nil =>
            intro _ r2 hrr
            rw [diffObjNew_nil] at hrr
            cases hrr
          | cons hd rest ihl =>
            obtain ⟨k, nv⟩ := hd
            intro hnl r2 hrr
            rw [niceKV] at hnl
            obtain ⟨hsafe, hnn, hnice, hrest⟩ := hnl
            rcases hl : lookupKV om k with _ | ov
            · rw [diffObjNew_cons_none hl] at hrr
              rcases List.mem_cons.mp hrr with h2 | h2
              · subst h2
                exact goodRec_flat hsafe.1 hsafe.2.1 _ _ _
              · exact ihl hrest r2 h2
            · rw [diffObjNew_cons_some hl] at hrr
              rcases List.mem_append.mp hrr with h2 | h2
              · rw [childPath_empty_left] at h2
                have hov : nice ov := (niceKV_mem ha.2 (lookupKV_mem hl)).2.2
                rw [diff_values_shift _ _ hov hnice k, List.mem_map] at h2
                obtain ⟨r3, _, hrr3⟩ := h2
                subst hrr3
                exact goodRec_shift hsafe.1 hsafe.2.1 r3
              · exact ihl hrest r2 h2
        exact key nm hb.2 r h

/-! ### How the patch applier acts on re-rooted records -/

theorem shiftPath_ct (p : String) (r : TreeDiff) :
    (shiftPath p r).change_type = r.change_type := rfl

theorem shiftPath_nv (p : String) (r : TreeDiff) :
    (shiftPath p r).new_value = r.new_value := rfl

theorem applyPatchList_nil (t : JVal) : applyPatchList t [] = t := rfl

theorem applyPatchList_cons (t : JVal) (r : TreeDiff) (L : List TreeDiff) :
    applyPatchList t (r :: L) = applyPatchList (apply_single_patch t r) L := rfl

theorem applyPatchList_append (t : JVal) (A B : List TreeDiff) :
    applyPatchList t (A ++ B) = applyPatchList (applyPatchList t A) B := by
  rw [applyPatchList, applyPatchList, applyPatchList, List.foldl_append]

/-- `apply_single_patch` on a record whose parsed path is non-empty is
the navigation loop. -/
theorem apply_single_eq_applyParts {r : TreeDiff} (h : splitDot r.path ≠ [])
    (tree : JVal) : apply_single_patch tree r = applyParts r tree (splitDot r.path) := by
  rw [apply_single_patch]
  simp [h]

/-- A root-path add/update replaces the whole tree with the record's
value. -/
theorem apply_single_root_val {r : TreeDiff} (hp : r.path = "")
    (hct : r.change_type = "add" ∨ r.change_type = "update")
    {v : JVal} (hv : r.new_value = some v) (tree : JVal) :
    apply_single_patch tree r = v := by
  obtain ⟨p1, ct1, ov1, nv1⟩ := r
  simp only at hp hct hv
  subst hp
  subst hv
  rcases hct with h | h <;> subst h <;> simp [apply_single_patch, splitDot_empty]

/-- `applyParts` never reads the record's `path` field. -/
theorem applyParts_shift (k : String) (r : TreeDiff) :
    ∀ (parts : List String) (tree : JVal),
      applyParts (shiftPath k r) tree parts = applyParts r tree parts := by
  intro parts
  induction parts with
  | nil => intro tree; rfl
  | cons part tail ih =>
    intro tree
    cases tail with
    | nil => rfl
    | cons part2 rest => simp only [applyParts, ih]

theorem apply_remove_key {k : String} (hk1 : k ≠ "") (hk2 : '.' ∉ k.toList)
    (hk3 : parseUsize k = none) (cur : List (String × JVal)) (ov : Option JVal)
    (nv : Option JVal) :
    apply_single_patch (JVal.obj cur) ⟨k, "remove", ov, nv⟩
      = JVal.obj (removeKV cur k) := by
  have hsp : splitDot k = [k] := splitDot_single hk1 hk2
  rw [apply_single_eq_applyParts (by show splitDot k ≠ []; rw [hsp]; simp) _]
  show applyParts _ _ (splitDot k) = _
  rw [hsp]
  simp [applyParts, hk3]

theorem apply_add_update_key {k ct : String}
    (hct : ct = "add" ∨ ct = "update") (hk1 : k ≠ "") (hk2 : '.' ∉ k.toList)
    (hk3 : parseUsize k = none) (cur : List (String × JVal)) (ov : Option JVal)
    (v : JVal) :
    apply_single_patch (JVal.obj cur) ⟨k, ct, ov, some v⟩
      = JVal.obj (insertKV cur k v) := by
  have hsp : splitDot k = [k] := splitDot_single hk1 hk2
  rw [apply_single_eq_applyParts (by show splitDot k ≠ []; rw [hsp]; simp) _]
  show applyParts _ _ (splitDot k) = _
  rw [hsp]
  rcases hct with h | h <;> subst h <;> simp [applyParts, hk3]

theorem apply_add_update_index {i : Nat} {ct : String}
    (hct : ct = "add" ∨ ct = "update") (hi : i < USIZE)
    (cur : List JVal) (ov : Option JVal) (v : JVal) :
    apply_single_patch (JVal.arr cur) ⟨natRepr i, ct, ov, some v⟩
      = JVal.arr (if i < cur.length then cur.set i v else cur ++ [v]) := by
  have hsp : splitDot (natRepr i) = [natRepr i] :=
    splitDot_single (natRepr_ne_empty i) (natRepr_no_dot i)
  rw [apply_single_eq_applyParts (by show splitDot (natRepr i) ≠ []; rw [hsp]; simp) _]
  show applyParts _ _ (splitDot (natRepr i)) = _
  rw [hsp]
  rcases hct with h | h <;> subst h <;> simp [applyParts, parseUsize_natRepr hi] <;>
    split <;> rfl

theorem apply_remove_index {i : Nat} (hi : i < USIZE)
    (cur : List JVal) (ov : Option JVal) (nv : Option JVal) :
    apply_single_patch (JVal.arr cur) ⟨natRepr i, "remove", ov, nv⟩
      = JVal.arr (if i < cur.length then cur.eraseIdx i else cur) := by
  have hsp : splitDot (natRepr i) = [natRepr i] :=
    splitDot_single (natRepr_ne_empty i) (natRepr_no_dot i)
  rw [apply_single_eq_applyParts (by show splitDot (natRepr i) ≠ []; rw [hsp]; simp) _]
  show applyParts _ _ (splitDot (natRepr i)) = _
  rw [hsp]
  simp [applyParts, parseUsize_natRepr hi]
  split <;> rfl

/-- Applying a record re-rooted under safe key `k` to an object that
binds `k` edits the value bound to `k` in place. -/
theorem apply_shift_obj {k : String} (hk : safeKey k) {cur : List (String × JVal)}
    {w : JVal} (hs : keysSorted cur = true) (hw : lookupKV cur k = some w)
    {r : TreeDiff} (hr : GoodRec r) :
    apply_single_patch (JVal.obj cur) (shiftPath k r)
      = JVal.obj (setKV cur k (apply_single_patch w r)) := by
  obtain ⟨hk1, hk2, hk3⟩ := hk
  by_cases hp : r.path = ""
  · obtain ⟨hct, v, hv⟩ := hr.1 hp
    have hpath : shiftPath k r = ⟨k, r.change_type, r.old_value, r.new_value⟩ := by
      rw [shiftPath, hp, addPrefix_empty]
    rw [hpath, hv, apply_add_update_key hct hk1 hk2 hk3 cur _ v,
      apply_single_root_val hp hct hv w, insertKV_eq_setKV v hs hw]
  · have hsplit : splitDot r.path ≠ [] := hr.2 hp
    obtain ⟨p2, rest, hpr⟩ := List.exists_cons_of_ne_nil hsplit
    have hsp : splitDot (shiftPath k r).path = k :: p2 :: rest := by
      rw [shiftPath_path, addPrefix_of_ne hp, splitDot_childPath hk1 hk2, hpr]
    rw [apply_single_eq_applyParts (by rw [hsp]; simp) _, hsp,
      apply_single_eq_applyParts hsplit w, hpr]
    simp [applyParts, hk3, hw, applyParts_shift]

theorem getD_set_self : ∀ (l : List JVal) (i : Nat) (v : JVal), i < l.length →
    (l.set i v).getD i JVal.null = v := by
  intro l
  induction l with
  | nil => intro i v h; cases h
  | cons x xs ih =>
    intro i v h
    cases i with
    | zero => rfl
    | succ j =>
      rw [List.set_cons_succ, List.getD_cons_succ]
      exact ih j v (by simpa using h)

/-- Applying a record re-rooted under decimal index `i` to an array
with more than `i` elements edits element `i` in place. -/
theorem apply_shift_arr {i : Nat} (hi : i < USIZE) {cur : List JVal}
    (hlen : i < cur.length) {r : TreeDiff} (hr : GoodRec r) :
    apply_single_patch (JVal.arr cur) (shiftPath (natRepr i) r)
      = JVal.arr (cur.set i (apply_single_patch (cur.getD i JVal.null) r)) := by
  by_cases hp : r.path = ""
  · obtain ⟨hct, v, hv⟩ := hr.1 hp
    have hpath : shiftPath (natRepr i) r
        = ⟨natRepr i, r.change_type, r.old_value, r.new_value⟩ := by
      rw [shiftPath, hp, addPrefix_empty]
    rw [hpath, hv, apply_add_update_index hct hi cur _ v,
      apply_single_root_val hp hct hv, if_pos hlen]
  · have hsplit : splitDot r.path ≠ [] := hr.2 hp
    obtain ⟨p2, rest, hpr⟩ := List.exists_cons_of_ne_nil hsplit
    have hsp : splitDot (shiftPath (natRepr i) r).path = natRepr i :: p2 :: rest := by
      rw [shiftPath_path, addPrefix_of_ne hp,
        splitDot_childPath (natRepr_ne_empty i) (natRepr_no_dot i), hpr]
    rw [apply_single_eq_applyParts (by rw [hsp]; simp) _, hsp,
      apply_single_eq_applyParts hsplit _, hpr]
    simp [applyParts, parseUsize_natRepr hi, hlen, applyParts_shift,
      List.getD_eq_getElem _ _ hlen]

/-- Folding a list of records all re-rooted under safe key `k` over an
object binding `k` folds the un-rooted records over the bound value. -/
theorem applyPatchList_shift_obj {k : String} (hk : safeKey k) :
    ∀ (L : List TreeDiff) (cur : List (String × JVal)) (w : JVal),
      keysSorted cur = true → lookupKV cur k = some w →
      (∀ r ∈ L, GoodRec r) →
      applyPatchList (JVal.obj cur) (L.map (shiftPath k))
        = JVal.obj (setKV cur k (applyPatchList w L)) := by
  intro L
  induction L with
  | nil =>
    intro cur w hs hw _
    rw [List.map_nil, applyPatchList_nil, applyPatchList_nil, setKV_self hw]
  | cons r L ihl =>
    intro cur w hs hw hg
    rw [List.map_cons, applyPatchList_cons, applyPatchList_cons,
      apply_shift_obj hk hs hw (hg r (List.mem_cons_self _ _))]
    have hs' : keysSorted (setKV cur k (apply_single_patch w r)) = true :=
      keysSorted_setKV _ _ hs
    have hw' : lookupKV (setKV cur k (apply_single_patch w r)) k
        = some (apply_single_patch w r) := lookup_setKV_of_some _ hw
    rw [ihl _ _ hs' hw' (fun r2 h2 => hg r2 (List.mem_cons_of_mem _ h2)), setKV_setKV]

/-- Folding a list of records all re-rooted under index `i` over an
array longer than `i` folds the un-rooted records over element `i`. -/
theorem applyPatchList_shift_arr {i : Nat} (hi : i < USIZE) :
    ∀ (L : List TreeDiff) (cur : List JVal), i < cur.length →
      (∀ r ∈ L, GoodRec r) →
      applyPatchList (JVal.arr cur) (L.map (shiftPath (natRepr i)))
        = JVal.arr (cur.set i (applyPatchList (cur.getD i JVal.null) L)) := by
  intro L
  induction L with
  | nil =>
    intro cur hlen _
    rw [List.map_nil, applyPatchList_nil, applyPatchList_nil,
      List.getD_eq_getElem _ _ hlen, list_set_self cur i hlen]
  | cons r L ihl =>
    intro cur hlen hg
    rw [List.map_cons, applyPatchList_cons, applyPatchList_cons,
      apply_shift_arr hi hlen (hg r (List.mem_cons_self _ _))]
    have hlen' : i < (cur.set i (apply_single_patch (cur.getD i JVal.null) r)).length := by
      rw [List.length_set]
      exact hlen
    rw [ihl _ hlen' (fun r2 h2 => hg r2 (List.mem_cons_of_mem _ h2)),
      getD_set_self _ _ _ hlen, List.set_set]

/-! ### Phase analysis of the patch fold on diff-produced records -/

theorem removeKV_of_lookup_none :
    ∀ {kvs : List (String × JVal)} {k : String}, lookupKV kvs k = none →
      removeKV kvs k = kvs := by
  intro kvs
  induction kvs with
  | nil => intro k _; rfl
  | cons hd rest ih =>
    intro k hl
    obtain ⟨k1, v1⟩ := hd
    by_cases he : k1 = k
    · rw [lookupKV, if_pos he] at hl
      cases hl
    · rw [lookupKV, if_neg he] at hl
      rw [removeKV, if_neg (fun h => he h.symm), ih hl]

/-- The remove records of the object arm, applied in order, are the
fold of `BTreeMap::remove` over the removed keys. -/
theorem obj_phase1 :
    ∀ (dels cur : List (String × JVal)),
      (∀ kv ∈ dels, safeKey kv.1) →
      applyPatchList (JVal.obj cur)
          (dels.map fun kv => ⟨kv.1, "remove", some kv.2, none⟩)
        = JVal.obj (dels.foldl (fun acc kv => removeKV acc kv.1) cur) := by
  intro dels
  induction dels with
  | nil => intro cur _; rfl
  | cons kv dels ih =>
    intro cur hsafe
    obtain ⟨hk1, hk2, hk3⟩ := hsafe kv (List.mem_cons_self _ _)
    rw [List.map_cons, applyPatchList_cons, apply_remove_key hk1 hk2 hk3 cur _ _,
      List.foldl_cons]
    exact ih (removeKV cur kv.1) (fun kv2 h2 => hsafe kv2 (List.mem_cons_of_mem _ h2))

theorem foldRemove_keysSorted :
    ∀ (dels cur : List (String × JVal)), keysSorted cur = true →
      keysSorted (dels.foldl (fun acc kv => removeKV acc kv.1) cur) = true := by
  intro dels
  induction dels with
  | nil => intro cur h; exact h
  | cons kv dels ih =>
    intro cur h
    rw [List.foldl_cons]
    exact ih _ (keysSorted_removeKV _ h)

theorem foldRemove_lookup_notin :
    ∀ (dels cur : List (String × JVal)) (k : String),
      (∀ kv ∈ dels, kv.1 ≠ k) →
      lookupKV (dels.foldl (fun acc kv => removeKV acc kv.1) cur) k = lookupKV cur k := by
  intro dels
  induction dels with
  | nil => intro cur k _; rfl
  | cons kv dels ih =>
    intro cur k hne
    rw [List.foldl_cons, ih _ k (fun kv2 h2 => hne kv2 (List.mem_cons_of_mem _ h2)),
      lookup_removeKV_ne (fun h => (hne kv (List.mem_cons_self _ _)) h.symm)]

theorem foldRemove_lookup_none :
    ∀ (dels cur : List (String × JVal)) (k : String),
      lookupKV cur k = none →
      lookupKV (dels.foldl (fun acc kv => removeKV acc kv.1) cur) k = none := by
  intro dels
  induction dels with
  | nil => intro cur k h; exact h
  | cons kv dels ih =>
    intro cur k h
    rw [List.foldl_cons]
    refine ih _ k ?_
    by_cases he : k = kv.1
    · subst he
      rw [removeKV_of_lookup_none h, h]
    · rw [lookup_removeKV_ne he, h]

theorem foldRemove_lookup_in :
    ∀ (dels cur : List (String × JVal)) (k : String),
      keysSorted cur = true → (∃ kv ∈ dels, kv.1 = k) →
      lookupKV (dels.foldl (fun acc kv => removeKV acc kv.1) cur) k = none := by
  intro dels
  induction dels with
  | nil =>
    intro cur k _ h
    obtain ⟨kv, hm, _⟩ := h
    cases hm
  | cons kv dels ih =>
    intro cur k hs hex
    rw [List.foldl_cons]
    obtain ⟨kv2, hm2, hk2⟩ := hex
    rcases List.mem_cons.mp hm2 with h | h
    · subst h
      refine foldRemove_lookup_none _ _ _ ?_
      rw [← hk2]
      exact lookup_removeKV_self kv2.1 hs
    · exact ih _ k (keysSorted_removeKV _ hs) ⟨kv2, h, hk2⟩

/-- The `for (key, new_val) in new_map` records of the object arm,
applied in order: keys present in the old map are recursively patched in
place, fresh keys are inserted. -/
theorem obj_phase2 (om : List (String × JVal)) :
    ∀ (l cur : List (String × JVal)),
      keysSorted l = true → niceKV l → keysSorted cur = true →
      (∀ k nv ov, (k, nv) ∈ l → lookupKV om k = some ov → lookupKV cur k = some ov) →
      (∀ k nv ov, (k, nv) ∈ l → lookupKV om k = some ov →
        ov ≠ JVal.null ∧ nice ov ∧ applyPatchList ov (diff_values ov nv "") = nv) →
      ∃ res, applyPatchList (JVal.obj cur) (diffObjNew om "" l) = JVal.obj res ∧
        keysSorted res = true ∧
        (∀ k nv, (k, nv) ∈ l → lookupKV res k = some nv) ∧
        (∀ k2, (∀ nv, (k2, nv) ∉ l) → lookupKV res k2 = lookupKV cur k2) := by
  intro l
  induction l with
  | nil =>
    intro cur _ _ hs _ _
    exact ⟨cur, by rw [diffObjNew_nil, applyPatchList_nil], hs,
      fun k nv hm => absurd hm (List.not_mem_nil _), fun k2 _ => rfl⟩
  | cons hd rest ihl =>
    obtain ⟨k, nv⟩ := hd
    intro cur hsl hnl hs hcur hrt
    rw [niceKV] at hnl
    obtain ⟨hsafe, hnn, hnice, hrest⟩ := hnl
    have hknotrest : ∀ kv ∈ rest, k ≠ kv.1 :=
      fun kv hm => strLt_ne (keysSorted_head_lt rest k nv hsl kv hm)
    rcases hl : lookupKV om k with _ | ov
    · rw [diffObjNew_cons_none hl, applyPatchList_cons, childPath_empty_left,
        apply_add_update_key (Or.inl rfl) hsafe.1 hsafe.2.1 hsafe.2.2 cur _ nv]
      have hs' : keysSorted (insertKV cur k nv) = true := keysSorted_insertKV _ _ hs
      have hcur' : ∀ k2 nv2 ov2, (k2, nv2) ∈ rest → lookupKV om k2 = some ov2 →
          lookupKV (insertKV cur k nv) k2 = some ov2 := by
        intro k2 nv2 ov2 hm2 hl2
        rw [lookup_insertKV_ne _ (fun he => hknotrest (k2, nv2) hm2 he.symm)]
        exact hcur k2 nv2 ov2 (List.mem_cons_of_mem _ hm2) hl2
      obtain ⟨res, hres, hsres, hin, hout⟩ :=
        ihl (insertKV cur k nv) (keysSorted_tail hsl) hrest hs' hcur'
          (fun k2 nv2 ov2 hm2 hl2 => hrt k2 nv2 ov2 (List.mem_cons_of_mem _ hm2) hl2)
      refine ⟨res, hres, hsres, ?_, ?_⟩
      · intro k2 nv2 hm2
        rcases List.mem_cons.mp hm2 with h | h
        · obtain ⟨hk2, hnv2⟩ := Prod.mk.injEq .. ▸ h
          have hnot : ∀ nv3, (k, nv3) ∉ rest := fun nv3 hmm => (hknotrest (k, nv3) hmm) rfl
          rw [hk2, hnv2, hout k hnot, lookupKV_insertKV_self]
        · exact hin k2 nv2 h
      · intro k2 hnotin
        have hne : k2 ≠ k := by
          intro he
          subst he
          exact hnotin nv (List.mem_cons_self _ _)
        rw [hout k2 (fun nv2 hmm => hnotin nv2 (List.mem_cons_of_mem _ hmm)),
          lookup_insertKV_ne _ hne]
    · obtain ⟨hovnn, hovnice, hrteq⟩ := hrt k nv ov (List.mem_cons_self _ _) hl
      have hw : lookupKV cur k = some ov := hcur k nv ov (List.mem_cons_self _ _) hl
      rw [diffObjNew_cons_some hl, applyPatchList_append, childPath_empty_left,
        diff_values_shift ov nv hovnice hnice k,
        applyPatchList_shift_obj hsafe _ cur ov hs hw
          (diff_values_good hovnn hnn hovnice hnice), hrteq]
      have hs' : keysSorted (setKV cur k nv) = true := keysSorted_setKV _ _ hs
      have hcur' : ∀ k2 nv2 ov2, (k2, nv2) ∈ rest → lookupKV om k2 = some ov2 →
          lookupKV (setKV cur k nv) k2 = some ov2 := by
        intro k2 nv2 ov2 hm2 hl2
        rw [lookup_setKV_ne _ (fun he => hknotrest (k2, nv2) hm2 he.symm)]
        exact hcur k2 nv2 ov2 (List.mem_cons_of_mem _ hm2) hl2
      obtain ⟨res, hres, hsres, hin, hout⟩ :=
        ihl (setKV cur k nv) (keysSorted_tail hsl) hrest hs' hcur'
          (fun k2 nv2 ov2 hm2 hl2 => hrt k2 nv2 ov2 (List.mem_cons_of_mem _ hm2) hl2)
      refine ⟨res, hres, hsres, ?_, ?_⟩
      · intro k2 nv2 hm2
        rcases List.mem_cons.mp hm2 with h | h
        · obtain ⟨hk2, hnv2⟩ := Prod.mk.injEq .. ▸ h
          have hnot : ∀ nv3, (k, nv3) ∉ rest := fun nv3 hmm => (hknotrest (k, nv3) hmm) rfl
          rw [hk2, hnv2, hout k hnot]
          exact lookup_setKV_of_some nv hw
        · exact hin k2 nv2 h
      · intro k2 hnotin
        have hne : k2 ≠ k := by
          intro he
          subst he
          exact hnotin nv (List.mem_cons_self _ _)
        rw [hout k2 (fun nv2 hmm => hnotin nv2 (List.mem_cons_of_mem _ hmm)),
          lookup_setKV_ne _ hne]

/-! ### List index arithmetic for the array sweep -/

theorem getD_append_right {α : Type} (d : α) :
    ∀ (l1 l2 : List α), (l1 ++ l2).getD l1.length d = l2.getD 0 d := by
  intro l1 l2
  induction l1 with
  | nil => rfl
  | cons x xs ih =>
    rw [List.cons_append, List.length_cons, List.getD_cons_succ]
    exact ih

theorem getD_drop_zero {α : Type} (d : α) :
    ∀ (l : List α) (j : Nat), (l.drop j).getD 0 d = l.getD j d := by
  intro l
  induction l with
  | nil =>
    intro j
    cases j <;> rfl
  | cons x xs ih =>
    intro j
    cases j with
    | zero => rfl
    | succ m =>
      rw [List.drop_succ_cons, List.getD_cons_succ]
      exact ih m

theorem set_append_len {α : Type} :
    ∀ (l1 : List α) (x : α) (l2 : List α) (v : α),
      (l1 ++ x :: l2).set l1.length v = l1 ++ v :: l2 := by
  intro l1
  induction l1 with
  | nil => intro x l2 v; rfl
  | cons y ys ih =>
    intro x l2 v
    rw [List.cons_append, List.length_cons, List.set_cons_succ, ih, List.cons_append]

theorem take_succ_getD {α : Type} (d : α) :
    ∀ (l : List α) (j : Nat), j < l.length →
      l.take (j + 1) = l.take j ++ [l.getD j d] := by
  intro l
  induction l with
  | nil => intro j h; cases h
  | cons x xs ih =>
    intro j h
    cases j with
    | zero => rfl
    | succ m =>
      rw [List.take_succ_cons, List.take_succ_cons, ih m (by simpa using h),
        List.getD_cons_succ, List.cons_append]

theorem drop_cons_getD {α : Type} (d : α) :
    ∀ (l : List α) (j : Nat), j < l.length →
      l.drop j = l.getD j d :: l.drop (j + 1) := by
  intro l
  induction l with
  | nil => intro j h; cases h
  | cons x xs ih =>
    intro j h
    cases j with
    | zero => rfl
    | succ m =>
      rw [List.drop_succ_cons, List.drop_succ_cons, List.getD_cons_succ]
      exact ih m (by simpa using h)

theorem eraseIdx_append_len {α : Type} :
    ∀ (l : List α) (x : α), (l ++ [x]).eraseIdx l.length = l := by
  intro l
  induction l with
  | nil => intro x; rfl
  | cons y ys ih =>
    intro x
    rw [List.cons_append, List.length_cons, List.eraseIdx_cons_succ, ih]

/-- The array arm's index sweep: after the first `j` indices the array
is the new prefix glued to the old suffix. -/
theorem arr_phase (oa na : List JVal) (hou : oa.length ≤ USIZE)
    (hnu : na.length ≤ USIZE) (hno : niceArr oa) (hnn : niceArr na)
    (hih : ∀ i, i < oa.length → i < na.length →
      applyPatchList (oa.getD i JVal.null)
        (diff_values (oa.getD i JVal.null) (na.getD i JVal.null) "")
      = na.getD i JVal.null) :
    ∀ j, j ≤ na.length →
      applyPatchList (JVal.arr oa)
        ((List.range j).flatMap fun i =>
          diff_values (oa.getD i JVal.null) (na.getD i JVal.null) (natRepr i))
      = JVal.arr (na.take j ++ oa.drop j) := by
  intro j
  induction j with
  | zero =>
    intro _
    rw [List.range_zero, List.flatMap_nil, applyPatchList_nil, List.take_zero,
      List.drop_zero, List.nil_append]
  | succ m ihj =>
    intro hm
    have hmlt : m < na.length := hm
    rw [List.range_succ, List.flatMap_append, applyPatchList_append,
      ihj (Nat.le_of_lt hmlt), List.flatMap_cons, List.flatMap_nil, List.append_nil]
    by_cases holt : m < oa.length
    · have hone : (oa.getD m JVal.null) ≠ JVal.null := niceArr_getD_ne_null hno holt
      have hnne : (na.getD m JVal.null) ≠ JVal.null := niceArr_getD_ne_null hnn hmlt
      have hl1 : (na.take m).length = m := by
        rw [List.length_take]
        exact Nat.min_eq_left (Nat.le_of_lt hmlt)
      have hmcur : m < (na.take m ++ oa.drop m).length := by
        rw [List.length_append, List.length_take, List.length_drop]
        omega
      have hgd : (na.take m ++ oa.drop m).getD m JVal.null = oa.getD m JVal.null := by
        calc (na.take m ++ oa.drop m).getD m JVal.null
            = (na.take m ++ oa.drop m).getD (na.take m).length JVal.null := by rw [hl1]
          _ = (oa.drop m).getD 0 JVal.null := getD_append_right _ _ _
          _ = oa.getD m JVal.null := getD_drop_zero _ _ _
      rw [diff_values_shift _ _ (niceArr_getD hno m) (niceArr_getD hnn m) (natRepr m),
        applyPatchList_shift_arr (lt_of_lt_of_le hmlt hnu) _ _ hmcur
          (diff_values_good hone hnne (niceArr_getD hno m) (niceArr_getD hnn m)),
        hgd, hih m holt hmlt]
      congr 1
      calc (na.take m ++ oa.drop m).set m (na.getD m JVal.null)
          = (na.take m ++ oa.getD m JVal.null :: oa.drop (m + 1)).set
              (na.take m).length (na.getD m JVal.null) := by
            rw [hl1, drop_cons_getD JVal.null oa m holt]
        _ = na.take m ++ na.getD m JVal.null :: oa.drop (m + 1) := set_append_len _ _ _ _
        _ = na.take (m + 1) ++ oa.drop (m + 1) := by
            rw [take_succ_getD JVal.null na m hmlt, List.append_assoc]
            rfl
    · have hole : oa.length ≤ m := Nat.le_of_not_lt holt
      have hgd0 : oa.getD m JVal.null = JVal.null := List.getD_eq_default _ _ hole
      rw [hgd0, diff_null_left (niceArr_getD_ne_null hnn hmlt) (natRepr m),
        applyPatchList_cons, applyPatchList_nil,
        apply_add_update_index (Or.inl rfl) (lt_of_lt_of_le hmlt hnu) _ _ _]
      have hclen : (na.take m ++ oa.drop m).length = m := by
        rw [List.length_append, List.length_take, List.length_drop]
        omega
      rw [hclen, if_neg (Nat.lt_irrefl m)]
      congr 1
      rw [List.drop_eq_nil_of_le hole, List.append_nil,
        take_succ_getD JVal.null na m hmlt, List.drop_eq_nil_of_le (by omega),
        List.append_nil]

/-! ## Claim C1: the diff/patch round-trip law -/

theorem apply_update_root (o2 n2 : JVal) :
    applyPatchList o2 [⟨"", "update", some o2, some n2⟩] = n2 := by
  rw [applyPatchList_cons, applyPatchList_nil,
    apply_single_root_val rfl (Or.inr rfl) rfl]

theorem applyPatch_diff_update {o2 n2 : JVal}
    (hd : diff_values o2 n2 "" = [⟨"", "update", some o2, some n2⟩]) :
    applyPatchList o2 (diff_values o2 n2 "") = n2 := by
  rw [hd]
  exact apply_update_root o2 n2

theorem applyPatch_diff_same {o2 : JVal} (hd : diff_values o2 o2 "" = []) :
    applyPatchList o2 (diff_values o2 o2 "") = o2 := by
  rw [hd]
  rfl

/-- The round-trip law on parsed trees at the root path: patching `o`
with `diff_values o n ""` restores `n`, for well-formed compatible
trees. -/
theorem diff_patch_roundtrip_core :
    ∀ o n : JVal, nice o → nice n → rtCompat o n →
      applyPatchList o (diff_values o n "") = n := by
  intro o n
  induction o, n using jval_pair_strong_induction with
  | step a b ih =>
    intro ha hb hc
    by_cases hbn : b = JVal.null
    · subst hbn
      by_cases han : a = JVal.null
      · subst han
        rw [show diff_values JVal.null JVal.null "" = [] from by simp [diff_values],
          applyPatchList_nil]
      · rw [diff_null_right han "", applyPatchList_cons, applyPatchList_nil]
        rfl
    · by_cases han : a = JVal.null
      · subst han
        rw [diff_null_left hbn "", applyPatchList_cons, applyPatchList_nil,
          apply_single_root_val rfl (Or.inl rfl) rfl]
      · cases a with
        | null => exact absurd rfl han
        | bool a2 =>
          cases b with
          | null => exact absurd rfl hbn
          | bool b2 =>
            by_cases he : a2 = b2
            · subst he
              exact applyPatch_diff_same (by simp [diff_values])
            · exact applyPatch_diff_update (by simp [diff_values, he])
          | num n2 => exact applyPatch_diff_update (by simp [diff_values])
          | str s2 => exact applyPatch_diff_update (by simp [diff_values])
          | arr ys => exact applyPatch_diff_update (by simp [diff_values])
          | obj nm => exact applyPatch_diff_update (by simp [diff_values])
        | num a2 =>
          cases b with
          | null => exact absurd rfl hbn
          | bool b2 => exact applyPatch_diff_update (by simp [diff_values])
          | num n2 =>
            by_cases he : a2 = n2
            · subst he
              exact applyPatch_diff_same (by simp [diff_values])
            · exact applyPatch_diff_update (by simp [diff_values, he])
          | str s2 => exact applyPatch_diff_update (by simp [diff_values])
          | arr ys => exact applyPatch_diff_update (by simp [diff_values])
          | obj nm => exact applyPatch_diff_update (by simp [diff_values])
        | str a2 =>
          cases b with
          | null => exact absurd rfl hbn
          | bool b2 => exact applyPatch_diff_update (by simp [diff_values])
          | num n2 => exact applyPatch_diff_update (by simp [diff_values])
          | str s2 =>
            by_cases he : a2 = s2
            · subst he
              exact applyPatch_diff_same (by simp [diff_values])
            · exact applyPatch_diff_update (by simp [diff_values, he])
          | arr ys => exact applyPatch_diff_update (by simp [diff_values])
          | obj nm => exact applyPatch_diff_update (by simp [diff_values])
        | arr xs =>
          cases b with
          | null => exact absurd rfl hbn
          | bool b2 => exact applyPatch_diff_update (by simp [diff_values])
          | num n2 => exact applyPatch_diff_update (by simp [diff_values])
          | str s2 => exact applyPatch_diff_update (by simp [diff_values])
          | obj nm => exact applyPatch_diff_update (by simp [diff_values])
          | arr ys =>
            rw [nice] at ha hb
            rw [rtCompat] at hc
            obtain ⟨hshr, hou, hnu, hcarr⟩ := hc
            rw [diff_values]
            have hflat : ((List.range (max xs.length ys.length)).flatMap fun i =>
                  diff_values (xs.getD i JVal.null) (ys.getD i JVal.null)
                    (childPath "" (natRepr i)))
                = ((List.range (max xs.length ys.length)).flatMap fun i =>
                  diff_values (xs.getD i JVal.null) (ys.getD i JVal.null)
                    (natRepr i)) := rfl
            rw [hflat]
            have hih : ∀ i, i < xs.length → i < ys.length →
                applyPatchList (xs.getD i JVal.null)
                  (diff_values (xs.getD i JVal.null) (ys.getD i JVal.null) "")
                = ys.getD i JVal.null := by
              intro i hio hin2
              have hsz : sizeOf (xs.getD i JVal.null) + sizeOf (ys.getD i JVal.null)
                  < sizeOf (JVal.arr xs) + sizeOf (JVal.arr ys) := by
                have g1 := sizeOf_getD_lt xs i
                have g2 := sizeOf_getD_lt ys i
                simp only [JVal.arr.sizeOf_spec]
                omega
              exact ih _ _ hsz (niceArr_getD ha i) (niceArr_getD hb i)
                (rtCompatArr_getD hcarr i)
            rcases Nat.lt_or_ge ys.length xs.length with hlt | hge
            · have hmax : max xs.length ys.length = ys.length + 1 := by omega
              rw [hmax, List.range_succ, List.flatMap_append, applyPatchList_append,
                arr_phase xs ys hou hnu ha hb hih ys.length (Nat.le_refl _),
                List.flatMap_cons, List.flatMap_nil, List.append_nil]
              have hgdn : ys.getD ys.length JVal.null = JVal.null :=
                List.getD_eq_default _ _ (Nat.le_refl _)
              have hgdo : xs.getD ys.length JVal.null ≠ JVal.null :=
                niceArr_getD_ne_null ha hlt
              rw [hgdn, diff_null_right hgdo (natRepr ys.length),
                applyPatchList_cons, applyPatchList_nil,
                apply_remove_index (lt_of_lt_of_le hlt hou) _ _ _]
              have hdropx : xs.drop ys.length = [xs.getD ys.length JVal.null] := by
                rw [drop_cons_getD JVal.null xs ys.length hlt,
                  List.drop_eq_nil_of_le (by omega)]
              rw [List.take_length, hdropx]
              have hlen : (ys ++ [xs.getD ys.length JVal.null]).length
                  = ys.length + 1 := by
                rw [List.length_append]
                rfl
              rw [hlen, if_pos (by omega : ys.length < ys.length + 1),
                eraseIdx_append_len]
            · have hmax : max xs.length ys.length = ys.length := by omega
              rw [hmax, arr_phase xs ys hou hnu ha hb hih ys.length (Nat.le_refl _),
                List.take_length, List.drop_eq_nil_of_le hge, List.append_nil]
        | obj om =>
          cases b with
          | null => exact absurd rfl hbn
          | bool b2 => exact applyPatch_diff_update (by simp [diff_values])
          | num n2 => exact applyPatch_diff_update (by simp [diff_values])
          | str s2 => exact applyPatch_diff_update (by simp [diff_values])
          | arr ys => exact applyPatch_diff_update (by simp [diff_values])
          | obj nm =>
            rw [nice] at ha hb
            rw [rtCompat] at hc
            rw [diff_values, applyPatchList_append]
            have hmapeq : (om.filter (fun kv => (lookupKV nm kv.1).isNone)).map
                  (fun kv =>
                    (⟨childPath "" kv.1, "remove", some kv.2, none⟩ : TreeDiff))
                = (om.filter (fun kv => (lookupKV nm kv.1).isNone)).map
                  (fun kv => (⟨kv.1, "remove", some kv.2, none⟩ : TreeDiff)) := rfl
            have hsafe1 : ∀ kv ∈ om.filter (fun kv => (lookupKV nm kv.1).isNone),
                safeKey kv.1 :=
              fun kv hkv => (niceKV_mem ha.2 (List.mem_filter.mp hkv).1).1
            rw [hmapeq, obj_phase1 _ om hsafe1]
            have hs1 : keysSorted
                ((om.filter (fun kv => (lookupKV nm kv.1).isNone)).foldl
                  (fun acc kv => removeKV acc kv.1) om) = true :=
              foldRemove_keysSorted _ om ha.1
            have hcur : ∀ k nv ov, (k, nv) ∈ nm → lookupKV om k = some ov →
                lookupKV ((om.filter (fun kv => (lookupKV nm kv.1).isNone)).foldl
                  (fun acc kv => removeKV acc kv.1) om) k = some ov := by
              intro k nv ov hm hl
              have hnm : lookupKV nm k = some nv :=
                lookupKV_of_mem_sorted nm k nv hb.1 hm
              have hne : ∀ kv ∈ om.filter (fun kv => (lookupKV nm kv.1).isNone),
                  kv.1 ≠ k := by
                intro kv hkv he
                have h2 := (List.mem_filter.mp hkv).2
                rw [he, hnm] at h2
                simp at h2
              rw [foldRemove_lookup_notin _ om k hne, hl]
            have hrt : ∀ k nv ov, (k, nv) ∈ nm → lookupKV om k = some ov →
                ov ≠ JVal.null ∧ nice ov ∧
                applyPatchList ov (diff_values ov nv "") = nv := by
              intro k nv ov hm hl
              have h1 := niceKV_mem ha.2 (lookupKV_mem hl)
              have h2 := niceKV_mem hb.2 hm
              refine ⟨h1.2.1, h1.2.2, ?_⟩
              have hsz : sizeOf ov + sizeOf nv
                  < sizeOf (JVal.obj om) + sizeOf (JVal.obj nm) := by
                have g1 := sizeOf_lookupKV hl
                have g2 := sizeOf_val_lt_obj hm
                simp only [JVal.obj.sizeOf_spec] at g2 ⊢
                omega
              exact ih ov nv hsz h1.2.2 h2.2.2 (rtCompatKV_lookup hc hm hl)
            obtain ⟨res, hres, hsres, hin, hout⟩ :=
              obj_phase2 om nm _ hb.1 hb.2 hs1 hcur hrt
            rw [hres]
            congr 1
            refine ext_sorted hsres hb.1 ?_
            intro k
            rcases hnm : lookupKV nm k with _ | nv
            · have hnotin : ∀ nv, (k, nv) ∉ nm := by
                intro nv hm
                rw [lookupKV_of_mem_sorted nm k nv hb.1 hm] at hnm
                cases hnm
              rw [hout k hnotin]
              rcases hom : lookupKV om k with _ | v
              · rw [foldRemove_lookup_notin _ om k ?_, hom]
                intro kv hkv he
                have hmem : (kv.1, kv.2) ∈ om := (List.mem_filter.mp hkv).1
                rw [he] at hmem
                have h3 := lookupKV_isSome_of_mem_key om k kv.2 hmem
                rw [hom] at h3
                cases h3
              · refine foldRemove_lookup_in _ om k ha.1 ⟨(k, v), ?_, rfl⟩
                rw [List.mem_filter]
                refine ⟨lookupKV_mem hom, ?_⟩
                show (lookupKV nm k).isNone = true
                rw [hnm]
                rfl
            · rw [hin k nv (lookupKV_mem hnm)]

/-- Claim C1 (counterexample to the unconditional statement): diffing
the empty object against an object whose key contains a dot produces a
record whose path re-parses as two components, so the patch is dropped
and the round trip fails. -/
theorem diff_patch_roundtrip_counterexample :
    apply_patch (some (JVal.obj []))
        (some (diff_trees (some (JVal.obj []))
          (some (JVal.obj [("a.b", JVal.num 1)]))))
      ≠ JVal.obj [("a.b", JVal.num 1)] := by
  intro h
  have hd : diff_trees (some (JVal.obj []))
      (some (JVal.obj [("a.b", JVal.num 1)]))
      = [⟨"a.b", "add", none, some (JVal.num 1)⟩] := by
    rw [diff_trees, compute_diff]
    show diff_values (JVal.obj []) (JVal.obj [("a.b", JVal.num 1)]) "" = _
    rw [diff_values,
      diffObjNew_cons_none
        (show lookupKV ([] : List (String × JVal)) "a.b" = none from rfl),
      diffObjNew_nil]
    rfl
  rw [hd] at h
  have happ : apply_patch (some (JVal.obj []))
      (some [(⟨"a.b", "add", none, some (JVal.num 1)⟩ : TreeDiff)])
      = JVal.obj [] := rfl
  rw [happ] at h
  simp at h

/-- Claim C1 (corrected): the round-trip law `patch(A, diff(A, B)) = B`
holds for all trees `A`, `B` such that (i) every object key anywhere in
either tree is non-empty, contains no `'.'`, and does not parse as a
`usize` (else the dotted-path grammar is ambiguous and records are
misrouted or dropped); (ii) no `Null` occurs strictly inside either
tree (`Null` is the diff engine's absence marker); (iii) object keys
are strictly sorted (the `BTreeMap` invariant, automatic for
deserialized values); and (iv) between paired arrays the length never
shrinks by more than one and stays within `usize` range (a shrink of
`k ≥ 2` emits `k` removes at the original indices, but indices shift
after the first removal).  Without these conditions the law fails, e.g.
for `A = {}`, `B = {"a.b": 1}`. -/
theorem diff_patch_roundtrip_amended (A B : JVal)
    (hA : nice A) (hB : nice B) (hAB : rtCompat A B) :
    apply_patch (some A) (some (diff_trees (some A) (some B))) = B := by
  rw [diff_trees, compute_diff]
  show applyPatchList A (diff_values A B "") = B
  exact diff_patch_roundtrip_core A B hA hB hAB

/-- Witness for the corrected C1 at a concrete pair of trees. -/
theorem diff_patch_roundtrip_amended_witness :
    apply_patch (some (JVal.obj [("a", JVal.num 1)]))
        (some (diff_trees (some (JVal.obj [("a", JVal.num 1)]))
          (some (JVal.obj [("a", JVal.num 2), ("b", JVal.str "x")]))))
      = JVal.obj [("a", JVal.num 2), ("b", JVal.str "x")] := by
  have hA : nice (JVal.obj [("a", JVal.num 1)]) := by
    rw [nice]
    refine ⟨by decide, ?_⟩
    rw [niceKV]
    refine ⟨⟨by decide, by decide, by decide⟩, by simp, ?_, ?_⟩
    · rw [nice]
      exact trivial
    · rw [niceKV]
      exact trivial
  have hB : nice (JVal.obj [("a", JVal.num 2), ("b", JVal.str "x")]) := by
    rw [nice]
    refine ⟨by decide, ?_⟩
    rw [niceKV]
    refine ⟨⟨by decide, by decide, by decide⟩, by simp, ?_, ?_⟩
    · rw [nice]
      exact trivial
    rw [niceKV]
    refine ⟨⟨by decide, by decide, by decide⟩, by simp, ?_, ?_⟩
    · rw [nice]
      exact trivial
    · rw [niceKV]
      exact trivial
  have hAB : rtCompat (JVal.obj [("a", JVal.num 1)])
      (JVal.obj [("a", JVal.num 2), ("b", JVal.str "x")]) := by
    rw [rtCompat, rtCompatKV]
    constructor
    · show rtCompat (JVal.num 1) (JVal.num 2)
      simp [rtCompat]
    · rw [rtCompatKV]
      constructor
      · show True
        exact trivial
      · rw [rtCompatKV]
        exact trivial
  exact diff_patch_roundtrip_amended _ _ hA hB hAB

end AeonFlux
